import Mathlib

/-!
Verification development for the float128-sine-precision tester (src/gcc-sinq.c).

The program compares native sine implementations against a 512-bit MPFR
reference and keeps Welford running statistics of the relative error.  We
shallowly embed the MPFR arithmetic used by the program: an MPFR number is
either NaN, a signed infinity, or a finite rational value; every arithmetic
operation computes the exact rational result and then rounds it to the target
precision with round-to-nearest, ties to even (MPFR_RNDN).  MPFR's exponent
range is unbounded in the model (the program never comes near MPFR's huge
exponent limits), and the sign of zero is not tracked (no claim depends on
it).  The 64-bit sample counter is modelled as an unbounded natural number:
its wrap-around at 2^64 samples is unreachable in any feasible run and no
claim concerns counter overflow.
-/

set_option maxRecDepth 8000

/-- Fuel-driven floor base-2 logarithm on naturals.  The fuel argument makes
the recursion structural so that the kernel can evaluate it. -/
def log2F : ℕ → ℕ → ℕ
  | 0, _ => 0
  | fuel+1, n => if n ≤ 1 then 0 else log2F fuel (n / 2) + 1

/-- Floor base-2 logarithm: for n ≥ 1, 2 ^ natLog2 n ≤ n < 2 ^ (natLog2 n + 1). -/
def natLog2 (n : ℕ) : ℕ := log2F n n

/-- Binary exponent of a positive rational q: the unique e with
2 ^ e ≤ q < 2 ^ (e + 1).  (Arbitrary on q ≤ 0; only used on positives.) -/
def qExp (q : ℚ) : ℤ :=
  if 1 ≤ q then (natLog2 ⌊q⌋.toNat : ℤ)
  else
    let l : ℤ := (natLog2 ⌊q⁻¹⌋.toNat : ℤ)
    if q * 2 ^ l = 1 then -l else -l - 1

/-- Round a rational to the nearest integer, ties to even. -/
def RHE (x : ℚ) : ℤ :=
  if x - ⌊x⌋ < 1/2 then ⌊x⌋
  else if 1/2 < x - ⌊x⌋ then ⌊x⌋ + 1
  else if ⌊x⌋ % 2 = 0 then ⌊x⌋ else ⌊x⌋ + 1

/-- Round-to-nearest-even of a positive rational at significand width p:
scale into [2^(p-1), 2^p), round to an integer, scale back. -/
def rndPos (p : ℕ) (q : ℚ) : ℚ :=
  (RHE (q * 2 ^ ((p : ℤ) - 1 - qExp q)) : ℚ) * 2 ^ (qExp q + 1 - (p : ℤ))

/-- MPFR round-to-nearest (MPFR_RNDN) at significand width p, as a map on
exact rational values.  The exponent range is unbounded (see header). -/
def rnd (p : ℕ) (q : ℚ) : ℚ :=
  if 0 < q then rndPos p q else if q < 0 then -rndPos p (-q) else 0

/-- q is exactly representable with a p-bit significand. -/
def FRep (p : ℕ) (q : ℚ) : Prop := rnd p q = q

/-- Correctly rounded (to nearest, ties to even) square root of a nonnegative
rational at significand width p, via integer square root of the value scaled
into [2^(2p-2), 2^(2p)). -/
def rsqrt (p : ℕ) (q : ℚ) : ℚ :=
  if q ≤ 0 then 0 else
  let f : ℤ := qExp q / 2
  let X : ℚ := q * 2 ^ (2 * ((p : ℤ) - 1 - f))
  let s : ℕ := Nat.sqrt ⌊X⌋.toNat
  let r : ℤ :=
    if ((2*s+1 : ℕ)^2 : ℚ) < 4 * X then (s : ℤ) + 1
    else if 4 * X < ((2*s+1 : ℕ)^2 : ℚ) then (s : ℤ)
    else if s % 2 = 0 then (s : ℤ) else (s : ℤ) + 1
  (r : ℚ) * 2 ^ (f + 1 - (p : ℤ))

/-- An MPFR number: NaN, a signed infinity (true = negative), or a finite
value.  The sign of zero is not tracked. -/
inductive MFloat where
  | nan : MFloat
  | inf : Bool → MFloat
  | fin : ℚ → MFloat
deriving DecidableEq

/-- Whether an MPFR number is finite (neither NaN nor an infinity). -/
def MFloat.isFin : MFloat → Bool
  | .fin _ => true
  | _ => false

/-- mpfr_add with target precision p, MPFR_RNDN. -/
def mpfr_add (p : ℕ) : MFloat → MFloat → MFloat
  | .nan, _ => .nan
  | _, .nan => .nan
  | .inf s, .inf t => if s = t then .inf s else .nan
  | .inf s, .fin _ => .inf s
  | .fin _, .inf t => .inf t
  | .fin a, .fin b => .fin (rnd p (a + b))

/-- mpfr_sub with target precision p, MPFR_RNDN. -/
def mpfr_sub (p : ℕ) : MFloat → MFloat → MFloat
  | .nan, _ => .nan
  | _, .nan => .nan
  | .inf s, .inf t => if s = t then .nan else .inf s
  | .inf s, .fin _ => .inf s
  | .fin _, .inf t => .inf (!t)
  | .fin a, .fin b => .fin (rnd p (a - b))

/-- mpfr_abs with target precision p, MPFR_RNDN. -/
def mpfr_abs (p : ℕ) : MFloat → MFloat
  | .nan => .nan
  | .inf _ => .inf false
  | .fin a => .fin (rnd p |a|)

/-- mpfr_div with target precision p, MPFR_RNDN.  A nonzero finite value
divided by zero gives a signed infinity; zero divided by zero gives NaN. -/
def mpfr_div (p : ℕ) : MFloat → MFloat → MFloat
  | .nan, _ => .nan
  | _, .nan => .nan
  | .inf _, .inf _ => .nan
  | .inf s, .fin b => .inf (xor s (decide (b < 0)))
  | .fin _, .inf _ => .fin 0
  | .fin a, .fin b =>
      if b = 0 then (if a = 0 then .nan else .inf (decide (a < 0)))
      else .fin (rnd p (a / b))

/-- mpfr_div_ui with target precision p, MPFR_RNDN. -/
def mpfr_div_ui (p : ℕ) (x : MFloat) (n : ℕ) : MFloat :=
  match x with
  | .nan => .nan
  | .inf s => .inf s
  | .fin a =>
      if n = 0 then (if a = 0 then .nan else .inf (decide (a < 0)))
      else .fin (rnd p (a / (n : ℚ)))

/-- Adding a signed infinity (the exact product of mpfr_fma's multiply when it
is infinite) to a third operand. -/
def mpfr_addInf (s : Bool) : MFloat → MFloat
  | .nan => .nan
  | .inf t => if s = t then .inf s else .nan
  | .fin _ => .inf s

/-- mpfr_fma with target precision p, MPFR_RNDN: x * y + z with a single final
rounding. -/
def mpfr_fma (p : ℕ) : MFloat → MFloat → MFloat → MFloat
  | .nan, _, _ => .nan
  | _, .nan, _ => .nan
  | .inf s, .inf t, z => mpfr_addInf (xor s t) z
  | .inf s, .fin b, z => if b = 0 then .nan else mpfr_addInf (xor s (decide (b < 0))) z
  | .fin a, .inf t, z => if a = 0 then .nan else mpfr_addInf (xor t (decide (a < 0))) z
  | .fin _, .fin _, .nan => .nan
  | .fin _, .fin _, .inf s => .inf s
  | .fin a, .fin b, .fin c => .fin (rnd p (a * b + c))

/-- mpfr_sqrt with target precision p, MPFR_RNDN.  The square root of a
negative value is NaN. -/
def mpfr_sqrt (p : ℕ) : MFloat → MFloat
  | .nan => .nan
  | .inf s => if s then .nan else .inf false
  | .fin a => if a < 0 then .nan else .fin (rsqrt p a)

/-- The working precision of the statistics: #define MPFR_PREC 512. -/
def MPFR_PREC : ℕ := 512

/-- The precision of the temporary holding each evaluator's result in main:
MPFR_DECL_INIT( mpfrtemp, 128+16 ). -/
def mpfrtemp_prec : ℕ := 128 + 16

/-- The statistics cell (struct stats_s in the source). -/
structure stats_t where
  distribution : String
  generator : String
  n : ℕ
  mean : MFloat
  m2 : MFloat
deriving DecidableEq

/-- stats_init: zero the counter and set mean and m2 to zero. -/
def stats_init (dist gen : String) : stats_t :=
  ⟨dist, gen, 0, .fin 0, .fin 0⟩

/-- The relative difference computed at the top of stats_add:
diff = y - ref; reldiff = diff / abs ref, all at MPFR_PREC. -/
def stats_reldiff (y ref : MFloat) : MFloat :=
  mpfr_div MPFR_PREC (mpfr_sub MPFR_PREC y ref) (mpfr_abs MPFR_PREC ref)

/-- stats_add (src/gcc-sinq.c lines 143-169): increment n, compute
reldiff = (y - ref)/abs ref, then the Welford update
delta = reldiff - mean; mean += delta/n; m2 = fma(delta, reldiff - mean, m2),
every operation at MPFR_PREC with MPFR_RNDN. -/
def stats_add (stats : stats_t) (y ref : MFloat) : stats_t :=
  let n := stats.n + 1
  let reldiff := stats_reldiff y ref
  let delta := mpfr_sub MPFR_PREC reldiff stats.mean
  let t := mpfr_div_ui MPFR_PREC delta n
  let mean := mpfr_add MPFR_PREC stats.mean t
  let t' := mpfr_sub MPFR_PREC reldiff mean
  let m2 := mpfr_fma MPFR_PREC delta t' stats.m2
  ⟨stats.distribution, stats.generator, n, mean, m2⟩

/-- One printed report record: the data stats_print writes for one cell. -/
structure printRec where
  distribution : String
  generator : String
  n : ℕ
  mean : MFloat
  variance : MFloat
  stddev : MFloat
deriving DecidableEq

/-- stats_print (src/gcc-sinq.c lines 171-191).  The locals variance and
stddev are created by MPFR_DECL_INIT on every call, whose initial value is
NaN; they are overwritten only when n > 1.  The cell itself is read-only
(it is passed by const pointer and never written), which the embedding
expresses by returning a record without touching the cell. -/
def stats_print (stats : stats_t) : printRec :=
  let varianceInit : MFloat := .nan
  let stddevInit : MFloat := .nan
  if 1 < stats.n then
    let variance := mpfr_div_ui MPFR_PREC stats.m2 (stats.n - 1)
    let stddev := mpfr_sqrt MPFR_PREC variance
    ⟨stats.distribution, stats.generator, stats.n, stats.mean, variance, stddev⟩
  else
    ⟨stats.distribution, stats.generator, stats.n, stats.mean, varianceInit, stddevInit⟩

/-- Modelled from the spec (claim C3's reading of stats_print): a print
routine whose variance/stddev locals persist from one call to the next, so
that a cell with n ≤ 1 would show the most recently computed values.  This is
the claimed behaviour, to be compared with stats_print above. -/
def stats_print_keep (locals : MFloat × MFloat) (stats : stats_t) :
    printRec × (MFloat × MFloat) :=
  if 1 < stats.n then
    let variance := mpfr_div_ui MPFR_PREC stats.m2 (stats.n - 1)
    let stddev := mpfr_sqrt MPFR_PREC variance
    (⟨stats.distribution, stats.generator, stats.n, stats.mean, variance, stddev⟩,
      (variance, stddev))
  else
    (⟨stats.distribution, stats.generator, stats.n, stats.mean, locals.1, locals.2⟩,
      locals)

/-- Hardcoded bit pattern of the smallest float above PI/2 (0x1.921fb6p+0). -/
def gt_pid2_int : ℕ := 0x3fc90fdb

/-- Hardcoded round(2^23 * PI/2). -/
def gt_pid2_ls23_int : ℕ := 13176795

/-- Reinterpret a 32-bit pattern as an IEEE-754 binary32 value (the union
trick in getrandom_1 and getrandom_3): sign bit 31, biased exponent bits
23-30, significand bits 0-22; exponent 255 encodes infinity/NaN, exponent 0
encodes subnormals. -/
def decode32 (u : ℕ) : MFloat :=
  let s : ℕ := u / 2^31
  let e : ℕ := u / 2^23 % 2^8
  let m : ℕ := u % 2^23
  if e = 255 then (if m = 0 then .inf (s = 1) else .nan)
  else
    let mag : ℚ :=
      if e = 0 then (m : ℚ) * 2 ^ (-149 : ℤ)
      else ((2^23 + m : ℕ) : ℚ) * 2 ^ ((e : ℤ) - 150)
    .fin (if s = 1 then -mag else mag)

/-- getrandom_1: r models the draw gmp_urandomm_ui(state, gt_pid2_int), a
uniform integer in [0, gt_pid2_int); the bit pattern is reinterpreted as a
float. -/
def getrandom_1 (r : ℕ) : MFloat := decode32 r

/-- The significand width of IEEE-754 binary32 (C float). -/
def flt_prec : ℕ := 24

/-- getrandom_2: r models the draw gmp_urandomm_ui(state, gt_pid2_ls23_int);
the integer is converted to float (one binary32 rounding) and divided by 2^23
(one binary32 rounding).  All values involved are in binary32's normal range,
so the fixed-exponent-range format agrees with the unbounded model. -/
def getrandom_2 (r : ℕ) : MFloat :=
  let f : ℚ := rnd flt_prec (r : ℚ)
  .fin (rnd flt_prec (f / 2^23))

/-- getrandom_3: u models the first draw gmp_urandomb_ui(state, 32) accepted
by the do-while loop, i.e. one whose exponent field is not all-ones; the bit
pattern is reinterpreted as a float. -/
def getrandom_3 (u : ℕ) : MFloat := decode32 u

/-- getsin_flt: v is the exact value of the native result sinf(phase), a
binary32 value; mpfr_set_flt stores it into the 144-bit destination with one
MPFR_RNDN rounding. -/
def getsin_flt (v : ℚ) : MFloat := .fin (rnd mpfrtemp_prec v)

/-- getsin_d: v is the exact value of the native result sin((double)phase), a
binary64 value; mpfr_set_d stores it into the 144-bit destination with one
MPFR_RNDN rounding. -/
def getsin_d (v : ℚ) : MFloat := .fin (rnd mpfrtemp_prec v)

/-- getsin_ld: v is the exact value of the native result
sinl((long double)phase), an x87 80-bit extended value with a 64-bit
significand; mpfr_set_ld stores it into the 144-bit destination with one
MPFR_RNDN rounding. -/
def getsin_ld (v : ℚ) : MFloat := .fin (rnd mpfrtemp_prec v)

/-- getsin_q: v is the exact value of the native result
sinq((__float128)phase), a binary128 value with a 113-bit significand.
Modelled from the spec for the C library calls involved: quadmath_snprintf
with %Qa prints the exact hexadecimal value of v (C17 7.21.6.1's %a prints
exactly when no precision is given), and mpfr_set_str parses that exact
value, so the round trip through the string is the identity on the value and
the only rounding is MPFR_RNDN into the 144-bit destination. -/
def getsin_q (v : ℚ) : MFloat := .fin (rnd mpfrtemp_prec v)

/-- v is exactly a value of a binary floating-point format with a sig-bit
significand (the exponent range, irrelevant for sine values, is unbounded). -/
def NativeRep (sig : ℕ) (v : ℚ) : Prop :=
  ∃ m : ℤ, ∃ e : ℤ, v = (m : ℚ) * 2 ^ e ∧ m.natAbs ≤ 2 ^ sig

/-- The fixed table of distribution names, in source order. -/
def distName : Fin 3 → String :=
  !["+0 <= x < PI/2, non-uniform", "+0 <= x < PI/2, uniform", "all floats"]

/-- The fixed table of generator (evaluator) names, in source order. -/
def genName : Fin 4 → String :=
  !["float", "double", "long double", "__float128"]

/-- The stats matrix right after main's stats_init loop. -/
def engineInit : Fin 3 → Fin 4 → stats_t :=
  fun d g => stats_init (distName d) (genName g)

/-- One iteration of main's outer while loop: for each distribution, draw one
phase, compute its shared reference sine once, and feed every generator's
result together with that same reference to the cell's stats_add.  refsin
models mpfr_sin of the phase at MPFR_PREC; gensin g models generator g's
native sine widened into the 144-bit temporary; phase d models the value
drawn from distribution d this iteration. -/
def engineIter (refsin : ℚ → MFloat) (gensin : Fin 4 → ℚ → MFloat)
    (phase : Fin 3 → ℚ) (cells : Fin 3 → Fin 4 → stats_t) :
    Fin 3 → Fin 4 → stats_t :=
  fun d g => stats_add (cells d g) (gensin g (phase d)) (refsin (phase d))

/-- K full iterations of main's outer loop from startup; phases k d is the
value drawn from distribution d in iteration k. -/
def engineRun (refsin : ℚ → MFloat) (gensin : Fin 4 → ℚ → MFloat)
    (phases : ℕ → Fin 3 → ℚ) : ℕ → (Fin 3 → Fin 4 → stats_t)
  | 0 => engineInit
  | k+1 => engineIter refsin gensin (phases k) (engineRun refsin gensin phases k)

/-- Folding stats_add over a list of (y, ref) pairs from an arbitrary cell
state. -/
def statsSteps (s : stats_t) (l : List (MFloat × MFloat)) : stats_t :=
  l.foldl (fun a x => stats_add a x.1 x.2) s

/-- Folding stats_add over a list of (y, ref) pairs from a fresh cell. -/
def statsRun (dist gen : String) (l : List (MFloat × MFloat)) : stats_t :=
  statsSteps (stats_init dist gen) l

/-- Invariant of cell states reachable through stats_add calls whose computed
relative errors were all finite: the mean is a finite 512-bit representable
value (still zero while n = 0), and m2 is a finite 512-bit representable
nonnegative value. -/
def WelfordInv (s : stats_t) : Prop :=
  (∃ a : ℚ, s.mean = .fin a ∧ FRep MPFR_PREC a ∧ (s.n = 0 → a = 0)) ∧
  (∃ b : ℚ, s.m2 = .fin b ∧ FRep MPFR_PREC b ∧ 0 ≤ b)

theorem log2F_spec (fuel : ℕ) : ∀ n, 1 ≤ n → n ≤ fuel →
    2 ^ log2F fuel n ≤ n ∧ n < 2 ^ (log2F fuel n + 1) := by
  induction fuel with
  | zero => intro n h1 h2; omega
  | succ fuel ih =>
    intro n h1 h2
    by_cases hn : n ≤ 1
    · have hn1 : n = 1 := by omega
      simp [log2F, hn1]
    · have h2' : n / 2 ≤ fuel := by omega
      have h1' : 1 ≤ n / 2 := by omega
      obtain ⟨a, b⟩ := ih (n / 2) h1' h2'
      have e1 : 2 ^ (log2F fuel (n/2) + 1) = 2 * 2 ^ (log2F fuel (n/2)) := by
        rw [pow_succ]; ring
      have e2 : 2 ^ (log2F fuel (n/2) + 1 + 1) = 2 * 2 ^ (log2F fuel (n/2) + 1) := by
        rw [pow_succ (n := log2F fuel (n/2) + 1)]; ring
      have hu : log2F (fuel + 1) n = log2F fuel (n / 2) + 1 := by
        rw [log2F]; simp [hn]
      rw [hu]
      omega

theorem natLog2_spec {n : ℕ} (h : 1 ≤ n) :
    2 ^ natLog2 n ≤ n ∧ n < 2 ^ (natLog2 n + 1) :=
  log2F_spec n n h le_rfl

theorem two_zpow_natCast (n : ℕ) : (2:ℚ) ^ (n : ℤ) = ((2 ^ n : ℕ) : ℚ) := by
  rw [zpow_natCast]; push_cast; ring

theorem two_zpow_natCast_succ (n : ℕ) : (2:ℚ) ^ ((n : ℤ) + 1) = ((2 ^ (n+1) : ℕ) : ℚ) := by
  rw [show ((n : ℤ) + 1) = ((n + 1 : ℕ) : ℤ) by push_cast; ring, zpow_natCast]
  push_cast; ring

theorem two_zpow_pos (m : ℤ) : (0:ℚ) < 2 ^ m := zpow_pos (by norm_num) m

theorem qExp_spec {q : ℚ} (hq : 0 < q) :
    (2:ℚ) ^ qExp q ≤ q ∧ q < 2 ^ (qExp q + 1) := by
  unfold qExp
  by_cases h1 : 1 ≤ q
  · rw [if_pos h1]
    have hfl : 1 ≤ ⌊q⌋ := by exact_mod_cast Int.le_floor.2 (by exact_mod_cast h1)
    set k : ℕ := ⌊q⌋.toNat with hk
    have hk1 : 1 ≤ k := by omega
    obtain ⟨a, b⟩ := natLog2_spec hk1
    have hcast : ((k : ℤ) : ℚ) = (⌊q⌋ : ℚ) := by congr 1; omega
    constructor
    · calc (2:ℚ) ^ ((natLog2 k : ℕ) : ℤ) = ((2 ^ natLog2 k : ℕ) : ℚ) :=
            two_zpow_natCast _
      _ ≤ ((k : ℕ) : ℚ) := by exact_mod_cast a
      _ = (⌊q⌋ : ℚ) := by exact_mod_cast hcast
      _ ≤ q := Int.floor_le q
    · calc q < (⌊q⌋ : ℚ) + 1 := Int.lt_floor_add_one q
      _ = ((k : ℕ) : ℚ) + 1 := by rw [← hcast]; push_cast; ring
      _ ≤ ((2 ^ (natLog2 k + 1) : ℕ) : ℚ) := by exact_mod_cast b
      _ = (2:ℚ) ^ (((natLog2 k : ℕ) : ℤ) + 1) := (two_zpow_natCast_succ _).symm
  · rw [if_neg h1]
    push_neg at h1
    have hr : 1 < q⁻¹ := (one_lt_inv₀ hq).2 h1
    have hfl : 1 ≤ ⌊q⁻¹⌋ := by
      exact_mod_cast Int.le_floor.2 (by exact_mod_cast hr.le)
    set k : ℕ := ⌊q⁻¹⌋.toNat with hk
    have hk1 : 1 ≤ k := by omega
    obtain ⟨a, b⟩ := natLog2_spec hk1
    set l : ℤ := ((natLog2 k : ℕ) : ℤ) with hl
    have hcast : ((k : ℤ) : ℚ) = (⌊q⁻¹⌋ : ℚ) := by congr 1; omega
    have hlow : (2:ℚ) ^ l ≤ q⁻¹ := by
      calc (2:ℚ) ^ l = ((2 ^ natLog2 k : ℕ) : ℚ) := two_zpow_natCast _
      _ ≤ ((k : ℕ) : ℚ) := by exact_mod_cast a
      _ = (⌊q⁻¹⌋ : ℚ) := by exact_mod_cast hcast
      _ ≤ q⁻¹ := Int.floor_le _
    have hhigh : q⁻¹ < (2:ℚ) ^ (l + 1) := by
      calc q⁻¹ < (⌊q⁻¹⌋ : ℚ) + 1 := Int.lt_floor_add_one _
      _ = ((k : ℕ) : ℚ) + 1 := by rw [← hcast]; push_cast; ring
      _ ≤ ((2 ^ (natLog2 k + 1) : ℕ) : ℚ) := by exact_mod_cast b
      _ = (2:ℚ) ^ (l + 1) := (two_zpow_natCast_succ _).symm
    have hq_le : q ≤ 2 ^ (-l) := by
      have h' : q * 2 ^ l ≤ 1 := by
        have := mul_le_mul_of_nonneg_left hlow hq.le
        rwa [mul_inv_cancel₀ hq.ne'] at this
      rw [zpow_neg, ← one_div, le_div_iff₀ (two_zpow_pos l)]
      exact h'
    have hq_gt : 2 ^ (-l - 1) < q := by
      have h' : 1 < q * 2 ^ (l + 1) := by
        have := mul_lt_mul_of_pos_left hhigh hq
        rwa [mul_inv_cancel₀ hq.ne'] at this
      rw [show (-l - 1) = -(l + 1) by ring, zpow_neg, ← one_div,
        div_lt_iff₀ (two_zpow_pos (l + 1))]
      linarith
    by_cases heq : q * 2 ^ l = 1
    · rw [if_pos heq]
      have hqe : q = 2 ^ (-l) := by
        rw [zpow_neg]
        exact eq_inv_of_mul_eq_one_left heq
      exact ⟨le_of_eq hqe.symm, by
        rw [hqe]
        exact zpow_lt_zpow_right₀ (by norm_num) (by omega)⟩
    · rw [if_neg heq]
      have hqlt : q < 2 ^ (-l) := by
        rcases lt_or_eq_of_le hq_le with h | h
        · exact h
        · exfalso; apply heq
          rw [h, zpow_neg]
          exact inv_mul_cancel₀ (two_zpow_pos l).ne'
      exact ⟨hq_gt.le, by rw [show (-l - 1 + 1) = -l by ring]; exact hqlt⟩

theorem qExp_unique {q : ℚ} {e : ℤ} (hq : 0 < q)
    (h1 : (2:ℚ) ^ e ≤ q) (h2 : q < 2 ^ (e + 1)) : qExp q = e := by
  obtain ⟨a, b⟩ := qExp_spec hq
  by_contra h
  rcases lt_or_gt_of_ne h with hlt | hgt
  · have : (2:ℚ) ^ (qExp q + 1) ≤ 2 ^ e :=
      zpow_le_zpow_right₀ one_le_two (by omega)
    linarith
  · have : (2:ℚ) ^ (e + 1) ≤ 2 ^ (qExp q) :=
      zpow_le_zpow_right₀ one_le_two (by omega)
    linarith

theorem qExp_mono {q r : ℚ} (hq : 0 < q) (h : q ≤ r) : qExp q ≤ qExp r := by
  have hr : 0 < r := lt_of_lt_of_le hq h
  obtain ⟨a1, b1⟩ := qExp_spec hq
  obtain ⟨a2, b2⟩ := qExp_spec hr
  by_contra hc
  push_neg at hc
  have : (2:ℚ) ^ (qExp r + 1) ≤ 2 ^ qExp q :=
    zpow_le_zpow_right₀ one_le_two (by omega)
  linarith

theorem qExp_two_zpow_mul {q : ℚ} (hq : 0 < q) (k : ℤ) :
    qExp (2 ^ k * q) = qExp q + k := by
  obtain ⟨a, b⟩ := qExp_spec hq
  have hpk : (0:ℚ) < 2 ^ k := two_zpow_pos k
  apply qExp_unique (by positivity)
  · rw [zpow_add₀ (two_ne_zero : (2:ℚ) ≠ 0) (qExp q) k, mul_comm ((2:ℚ) ^ qExp q)]
    exact mul_le_mul_of_nonneg_left a hpk.le
  · rw [show qExp q + k + 1 = (qExp q + 1) + k by ring,
      zpow_add₀ (two_ne_zero : (2:ℚ) ≠ 0) (qExp q + 1) k, mul_comm ((2:ℚ) ^ (qExp q + 1))]
    exact mul_lt_mul_of_pos_left b hpk

theorem RHE_intCast (n : ℤ) : RHE (n : ℚ) = n := by
  unfold RHE
  rw [Int.floor_intCast]
  norm_num

theorem RHE_floor_le (x : ℚ) : ⌊x⌋ ≤ RHE x := by
  unfold RHE
  split_ifs <;> omega

theorem RHE_le_floor_add_one (x : ℚ) : RHE x ≤ ⌊x⌋ + 1 := by
  unfold RHE
  split_ifs <;> omega

theorem RHE_sub_le (x : ℚ) : (RHE x : ℚ) ≤ x + 1/2 := by
  have hf : (⌊x⌋ : ℚ) ≤ x := Int.floor_le x
  unfold RHE
  split_ifs with h1 h2 h3 <;> push_cast <;> linarith

theorem RHE_le_add (x : ℚ) : x - 1/2 ≤ (RHE x : ℚ) := by
  have hf : x < ⌊x⌋ + 1 := Int.lt_floor_add_one x
  unfold RHE
  split_ifs with h1 h2 h3 <;> push_cast <;> linarith

theorem RHE_mono {x y : ℚ} (h : x ≤ y) : RHE x ≤ RHE y := by
  rcases lt_or_eq_of_le (Int.floor_le_floor h) with hf | hf
  · have h1 := RHE_le_floor_add_one x
    have h2 := RHE_floor_le y
    omega
  · have hd : x - ⌊x⌋ ≤ y - ⌊x⌋ := by linarith
    unfold RHE
    rw [← hf]
    split_ifs <;> first | omega | (exfalso; linarith)

theorem rndPos_def (p : ℕ) (q : ℚ) :
    rndPos p q =
      (RHE (q * 2 ^ ((p : ℤ) - 1 - qExp q)) : ℚ) * 2 ^ (qExp q + 1 - (p : ℤ)) :=
  rfl

theorem rndPos_scaled_bounds {q : ℚ} (hq : 0 < q) (p : ℕ) :
    (2:ℚ) ^ ((p : ℤ) - 1) ≤ q * 2 ^ ((p : ℤ) - 1 - qExp q) ∧
      q * 2 ^ ((p : ℤ) - 1 - qExp q) < 2 ^ (p : ℤ) := by
  obtain ⟨a, b⟩ := qExp_spec hq
  have hpk : (0:ℚ) < 2 ^ ((p : ℤ) - 1 - qExp q) := two_zpow_pos _
  constructor
  · calc (2:ℚ) ^ ((p : ℤ) - 1)
        = 2 ^ qExp q * 2 ^ ((p : ℤ) - 1 - qExp q) := by
          rw [← zpow_add₀ (two_ne_zero : (2:ℚ) ≠ 0)]; ring_nf
    _ ≤ q * 2 ^ ((p : ℤ) - 1 - qExp q) := mul_le_mul_of_nonneg_right a hpk.le
  · calc q * 2 ^ ((p : ℤ) - 1 - qExp q)
        < 2 ^ (qExp q + 1) * 2 ^ ((p : ℤ) - 1 - qExp q) :=
          mul_lt_mul_of_pos_right b hpk
    _ = 2 ^ (p : ℤ) := by
          rw [← zpow_add₀ (two_ne_zero : (2:ℚ) ≠ 0)]; ring_nf

theorem rndPos_err {q : ℚ} (hq : 0 < q) (p : ℕ) :
    |rndPos p q - q| ≤ 2 ^ (qExp q - (p : ℤ)) := by
  set E := qExp q with hE
  set x := q * 2 ^ ((p : ℤ) - 1 - E) with hx
  have h1 : (RHE x : ℚ) ≤ x + 1/2 := RHE_sub_le x
  have h2 : x - 1/2 ≤ (RHE x : ℚ) := RHE_le_add x
  have hpk : (0:ℚ) < 2 ^ (E + 1 - (p : ℤ)) := two_zpow_pos _
  have hqx : x * 2 ^ (E + 1 - (p : ℤ)) = q := by
    rw [hx, mul_assoc, ← zpow_add₀ (two_ne_zero : (2:ℚ) ≠ 0)]
    rw [show ((p : ℤ) - 1 - E) + (E + 1 - (p : ℤ)) = 0 by ring]
    norm_num
  have he : (2:ℚ) ^ (E - (p : ℤ)) = 2 ^ (E + 1 - (p : ℤ)) / 2 := by
    rw [show E - (p : ℤ) = (E + 1 - (p : ℤ)) - 1 by ring,
      zpow_sub₀ (two_ne_zero : (2:ℚ) ≠ 0)]
    norm_num
  have hlo : (x - 1/2) * 2 ^ (E + 1 - (p : ℤ)) = q - 2 ^ (E + 1 - (p : ℤ)) / 2 := by
    rw [sub_mul, hqx]; ring
  have hhi : (x + 1/2) * 2 ^ (E + 1 - (p : ℤ)) = q + 2 ^ (E + 1 - (p : ℤ)) / 2 := by
    rw [add_mul, hqx]; ring
  rw [rndPos_def, ← hE, ← hx, abs_le]
  constructor
  · have hm := mul_le_mul_of_nonneg_right h2 hpk.le
    rw [he]
    linarith
  · have hm := mul_le_mul_of_nonneg_right h1 hpk.le
    rw [he]
    linarith

theorem two_zpow_pred {p : ℕ} (hp : 1 ≤ p) :
    (2:ℚ) ^ ((p : ℤ) - 1) = ((2 ^ (p - 1) : ℕ) : ℚ) := by
  rw [show ((p : ℤ) - 1) = ((p - 1 : ℕ) : ℤ) by omega, two_zpow_natCast]

theorem rndPos_lower {q : ℚ} (hq : 0 < q) {p : ℕ} (hp : 1 ≤ p) :
    (2:ℚ) ^ qExp q ≤ rndPos p q := by
  obtain ⟨hs1, hs2⟩ := rndPos_scaled_bounds hq p
  set x := q * 2 ^ ((p : ℤ) - 1 - qExp q) with hx
  have hint : ((2 ^ (p - 1) : ℕ) : ℚ) ≤ x := by
    rw [← two_zpow_pred hp]; exact hs1
  have hfl : ((2 ^ (p - 1) : ℕ) : ℤ) ≤ ⌊x⌋ := Int.le_floor.2 (by exact_mod_cast hint)
  have hR : ((2 ^ (p - 1) : ℕ) : ℤ) ≤ RHE x := le_trans hfl (RHE_floor_le x)
  have hRq : (2:ℚ) ^ ((p : ℤ) - 1) ≤ (RHE x : ℚ) := by
    rw [two_zpow_pred hp]; exact_mod_cast hR
  rw [rndPos_def, ← hx]
  calc (2:ℚ) ^ qExp q = 2 ^ ((p : ℤ) - 1) * 2 ^ (qExp q + 1 - (p : ℤ)) := by
        rw [← zpow_add₀ (two_ne_zero : (2:ℚ) ≠ 0)]; ring_nf
  _ ≤ (RHE x : ℚ) * 2 ^ (qExp q + 1 - (p : ℤ)) :=
        mul_le_mul_of_nonneg_right hRq (two_zpow_pos _).le

theorem rndPos_upper {q : ℚ} (hq : 0 < q) (p : ℕ) :
    rndPos p q ≤ 2 ^ (qExp q + 1) := by
  obtain ⟨hs1, hs2⟩ := rndPos_scaled_bounds hq p
  set x := q * 2 ^ ((p : ℤ) - 1 - qExp q) with hx
  have hint : x < ((2 ^ p : ℕ) : ℚ) := by
    calc x < (2:ℚ) ^ (p : ℤ) := hs2
    _ = ((2 ^ p : ℕ) : ℚ) := two_zpow_natCast p
  have hfl : ⌊x⌋ < ((2 ^ p : ℕ) : ℤ) := Int.floor_lt.2 (by exact_mod_cast hint)
  have hR : RHE x ≤ ((2 ^ p : ℕ) : ℤ) := le_trans (RHE_le_floor_add_one x) (by omega)
  have hRq : (RHE x : ℚ) ≤ (2:ℚ) ^ (p : ℤ) := by
    calc (RHE x : ℚ) ≤ ((2 ^ p : ℕ) : ℚ) := by exact_mod_cast hR
    _ = (2:ℚ) ^ (p : ℤ) := (two_zpow_natCast p).symm
  rw [rndPos_def, ← hx]
  calc (RHE x : ℚ) * 2 ^ (qExp q + 1 - (p : ℤ))
      ≤ (2:ℚ) ^ (p : ℤ) * 2 ^ (qExp q + 1 - (p : ℤ)) :=
        mul_le_mul_of_nonneg_right hRq (two_zpow_pos _).le
  _ = 2 ^ (qExp q + 1) := by
        rw [← zpow_add₀ (two_ne_zero : (2:ℚ) ≠ 0)]; ring_nf

theorem rndPos_pos {q : ℚ} (hq : 0 < q) {p : ℕ} (hp : 1 ≤ p) :
    0 < rndPos p q :=
  lt_of_lt_of_le (two_zpow_pos (qExp q)) (rndPos_lower hq hp)

theorem rndPos_fix_norm {p : ℕ} {m : ℤ} (h1 : 2 ^ (p - 1) ≤ m) (h2 : m < 2 ^ p)
    (hp : 1 ≤ p) (e : ℤ) : rndPos p ((m : ℚ) * 2 ^ e) = (m : ℚ) * 2 ^ e := by
  have hm0 : (0:ℤ) < m := lt_of_lt_of_le (by positivity) h1
  have hq : (0:ℚ) < (m : ℚ) * 2 ^ e := by
    have : (0:ℚ) < (m : ℚ) := by exact_mod_cast hm0
    positivity
  have hE : qExp ((m : ℚ) * 2 ^ e) = (p : ℤ) - 1 + e := by
    apply qExp_unique hq
    · calc (2:ℚ) ^ ((p : ℤ) - 1 + e) = 2 ^ ((p : ℤ) - 1) * 2 ^ e := by
            rw [← zpow_add₀ (two_ne_zero : (2:ℚ) ≠ 0)]
      _ ≤ (m : ℚ) * 2 ^ e := by
            apply mul_le_mul_of_nonneg_right _ (two_zpow_pos e).le
            rw [two_zpow_pred hp]; exact_mod_cast h1
    · calc (m : ℚ) * 2 ^ e < 2 ^ (p : ℤ) * 2 ^ e := by
            apply mul_lt_mul_of_pos_right _ (two_zpow_pos e)
            calc (m : ℚ) < ((2 ^ p : ℕ) : ℚ) := by exact_mod_cast h2
            _ = (2:ℚ) ^ (p : ℤ) := (two_zpow_natCast p).symm
      _ = 2 ^ ((p : ℤ) - 1 + e + 1) := by
            rw [← zpow_add₀ (two_ne_zero : (2:ℚ) ≠ 0)]; ring_nf
  rw [rndPos_def, hE]
  have hscaled : (m : ℚ) * 2 ^ e * 2 ^ ((p : ℤ) - 1 - ((p : ℤ) - 1 + e)) = (m : ℚ) := by
    rw [mul_assoc, ← zpow_add₀ (two_ne_zero : (2:ℚ) ≠ 0)]
    rw [show e + ((p : ℤ) - 1 - ((p : ℤ) - 1 + e)) = 0 by ring]
    norm_num
  rw [hscaled, RHE_intCast]
  rw [show (p : ℤ) - 1 + e + 1 - (p : ℤ) = e by ring]

theorem rnd_zero (p : ℕ) : rnd p 0 = 0 := by simp [rnd]

theorem rnd_pos_eq (p : ℕ) {q : ℚ} (hq : 0 < q) : rnd p q = rndPos p q := by
  rw [rnd, if_pos hq]

theorem rnd_neg (p : ℕ) (q : ℚ) : rnd p (-q) = -(rnd p q) := by
  rcases lt_trichotomy q 0 with h | h | h
  · rw [rnd, if_pos (by linarith : (0:ℚ) < -q), rnd, if_neg (by linarith), if_pos h,
      neg_neg]
  · rw [h]; simp [rnd]
  · rw [rnd, if_neg (by linarith), if_pos (by linarith : -q < 0), neg_neg,
      rnd, if_pos h]

theorem rnd_pos {p : ℕ} (hp : 1 ≤ p) {q : ℚ} (hq : 0 < q) : 0 < rnd p q := by
  rw [rnd_pos_eq p hq]; exact rndPos_pos hq hp

theorem rnd_nonneg {p : ℕ} (hp : 1 ≤ p) {q : ℚ} (hq : 0 ≤ q) : 0 ≤ rnd p q := by
  rcases lt_or_eq_of_le hq with h | h
  · exact (rnd_pos hp h).le
  · rw [← h, rnd_zero]

theorem rnd_eq_zero_iff {p : ℕ} (hp : 1 ≤ p) {q : ℚ} : rnd p q = 0 ↔ q = 0 := by
  constructor
  · intro h
    rcases lt_trichotomy q 0 with hq | hq | hq
    · exfalso
      have : 0 < rnd p (-q) := rnd_pos hp (by linarith)
      rw [rnd_neg, h] at this
      norm_num at this
    · exact hq
    · exfalso
      have := rnd_pos hp hq
      rw [h] at this
      exact lt_irrefl 0 this
  · intro h; rw [h, rnd_zero]

theorem rndPos_mono {p : ℕ} (hp : 1 ≤ p) {q r : ℚ} (hq : 0 < q) (h : q ≤ r) :
    rndPos p q ≤ rndPos p r := by
  have hr : 0 < r := lt_of_lt_of_le hq h
  rcases lt_or_eq_of_le (qExp_mono hq h) with hE | hE
  · calc rndPos p q ≤ 2 ^ (qExp q + 1) := rndPos_upper hq p
    _ ≤ 2 ^ qExp r := zpow_le_zpow_right₀ one_le_two (by omega)
    _ ≤ rndPos p r := rndPos_lower hr hp
  · rw [rndPos_def, rndPos_def, ← hE]
    have hsc : q * 2 ^ ((p : ℤ) - 1 - qExp q) ≤ r * 2 ^ ((p : ℤ) - 1 - qExp q) :=
      mul_le_mul_of_nonneg_right h (two_zpow_pos _).le
    have := RHE_mono hsc
    apply mul_le_mul_of_nonneg_right _ (two_zpow_pos _).le
    exact_mod_cast this

theorem rnd_mono {p : ℕ} (hp : 1 ≤ p) {q r : ℚ} (h : q ≤ r) :
    rnd p q ≤ rnd p r := by
  rcases le_or_lt q 0 with hq | hq
  · rcases le_or_lt r 0 with hr | hr
    · rcases lt_or_eq_of_le (neg_nonneg.2 hr) with h4 | h4
      · have : rnd p (-r) ≤ rnd p (-q) := by
          rw [rnd_pos_eq p h4, rnd_pos_eq p (lt_of_lt_of_le h4 (by linarith))]
          exact rndPos_mono hp h4 (by linarith)
        rw [rnd_neg, rnd_neg] at this
        linarith
      · have hr0 : r = 0 := by linarith
        rw [hr0, rnd_zero]
        have : 0 ≤ rnd p (-q) := rnd_nonneg hp (by linarith)
        rw [rnd_neg] at this
        linarith
    · calc rnd p q ≤ 0 := by
            have : 0 ≤ rnd p (-q) := rnd_nonneg hp (by linarith)
            rw [rnd_neg] at this
            linarith
      _ ≤ rnd p r := (rnd_pos hp hr).le
  · rw [rnd_pos_eq p hq, rnd_pos_eq p (lt_of_lt_of_le hq h)]
    exact rndPos_mono hp hq h

theorem rnd_fix_pos {p : ℕ} (hp : 1 ≤ p) {m : ℤ} (h1 : 0 < m) (h2 : m ≤ 2 ^ p)
    (e : ℤ) : rnd p ((m : ℚ) * 2 ^ e) = (m : ℚ) * 2 ^ e := by
  have hq : (0:ℚ) < (m : ℚ) * 2 ^ e := by
    have : (0:ℚ) < (m : ℚ) := by exact_mod_cast h1
    positivity
  rw [rnd_pos_eq p hq]
  rcases eq_or_lt_of_le h2 with hm | hm
  · have hrw : (m : ℚ) * 2 ^ e = ((2 ^ (p - 1) : ℤ) : ℚ) * 2 ^ (e + 1) := by
      rw [hm]
      push_cast
      rw [← zpow_natCast (2:ℚ) p, ← zpow_natCast (2:ℚ) (p - 1),
        ← zpow_add₀ (two_ne_zero : (2:ℚ) ≠ 0), ← zpow_add₀ (two_ne_zero : (2:ℚ) ≠ 0)]
      congr 1
      omega
    rw [hrw]
    refine rndPos_fix_norm le_rfl ?_ hp (e + 1)
    have hlt : (2:ℕ) ^ (p - 1) < 2 ^ p := Nat.pow_lt_pow_right (by norm_num) (by omega)
    exact_mod_cast hlt
  · -- normalize m into [2 ^ (p-1), 2 ^ p)
    set L := natLog2 m.toNat with hL
    have hm1 : 1 ≤ m.toNat := by omega
    obtain ⟨a, b⟩ := natLog2_spec hm1
    have hLp : L ≤ p - 1 := by
      by_contra hc
      push_neg at hc
      have : 2 ^ p ≤ 2 ^ L := Nat.pow_le_pow_right (by norm_num) (by omega)
      have : (2:ℕ) ^ p ≤ m.toNat := le_trans this a
      have hmp : (2:ℤ) ^ p ≤ m := by
        calc (2:ℤ) ^ p = ((2 ^ p : ℕ) : ℤ) := by push_cast; ring
        _ ≤ (m.toNat : ℤ) := by exact_mod_cast this
        _ = m := by omega
      omega
    set m' : ℤ := m * 2 ^ (p - 1 - L) with hm'
    have hb1 : 2 ^ (p - 1) ≤ m' := by
      have : (2:ℤ) ^ L ≤ m := by
        calc (2:ℤ) ^ L = ((2 ^ L : ℕ) : ℤ) := by push_cast; ring
        _ ≤ (m.toNat : ℤ) := by exact_mod_cast a
        _ = m := by omega
      calc (2:ℤ) ^ (p - 1) = 2 ^ L * 2 ^ (p - 1 - L) := by
            rw [← pow_add]; congr 1; omega
      _ ≤ m * 2 ^ (p - 1 - L) := by
            apply mul_le_mul_of_nonneg_right this (by positivity)
    have hb2 : m' < 2 ^ p := by
      have : m < (2:ℤ) ^ (L + 1) := by
        calc m = (m.toNat : ℤ) := by omega
        _ < ((2 ^ (L + 1) : ℕ) : ℤ) := by exact_mod_cast b
        _ = (2:ℤ) ^ (L + 1) := by push_cast; ring
      calc m * 2 ^ (p - 1 - L) < 2 ^ (L + 1) * 2 ^ (p - 1 - L) := by
            apply mul_lt_mul_of_pos_right this (by positivity)
      _ = 2 ^ p := by rw [← pow_add]; congr 1; omega
    have hrw : (m : ℚ) * 2 ^ e = (m' : ℚ) * 2 ^ (e - ((p : ℤ) - 1 - L)) := by
      rw [hm']
      push_cast
      rw [mul_assoc, ← zpow_natCast (2:ℚ) (p - 1 - L),
        ← zpow_add₀ (two_ne_zero : (2:ℚ) ≠ 0)]
      congr 2
      omega
    rw [hrw]
    exact rndPos_fix_norm hb1 hb2 hp _

theorem rnd_fix_int {p : ℕ} (hp : 1 ≤ p) {m : ℤ} (h1 : m ≠ 0)
    (h2 : m.natAbs ≤ 2 ^ p) (e : ℤ) :
    rnd p ((m : ℚ) * 2 ^ e) = (m : ℚ) * 2 ^ e := by
  have hcast2 : ((2 ^ p : ℕ) : ℤ) = (2:ℤ) ^ p := by push_cast; ring
  rcases lt_or_gt_of_ne h1 with hm | hm
  · have h1' : (0:ℤ) < -m := by omega
    have h2' : -m ≤ (2:ℤ) ^ p := by omega
    have hfix := rnd_fix_pos hp h1' h2' e
    have hc : ((-m : ℤ) : ℚ) * 2 ^ e = -((m : ℚ) * 2 ^ e) := by push_cast; ring
    rw [hc, rnd_neg] at hfix
    exact neg_injective hfix
  · have h2' : m ≤ (2:ℤ) ^ p := by omega
    exact rnd_fix_pos hp hm h2' e

theorem rndPos_scale (p : ℕ) {q : ℚ} (hq : 0 < q) (k : ℤ) :
    rndPos p (2 ^ k * q) = 2 ^ k * rndPos p q := by
  have hq' : (0:ℚ) < 2 ^ k * q := by
    have := two_zpow_pos k
    positivity
  rw [rndPos_def, rndPos_def, qExp_two_zpow_mul hq k]
  have hsc : 2 ^ k * q * 2 ^ ((p : ℤ) - 1 - (qExp q + k)) = q * 2 ^ ((p : ℤ) - 1 - qExp q) := by
    rw [mul_comm ((2:ℚ) ^ k) q, mul_assoc, ← zpow_add₀ (two_ne_zero : (2:ℚ) ≠ 0)]
    congr 2
    ring
  rw [hsc]
  rw [show qExp q + k + 1 - (p : ℤ) = k + (qExp q + 1 - (p : ℤ)) by ring,
    zpow_add₀ (two_ne_zero : (2:ℚ) ≠ 0)]
  ring

theorem rnd_scale (p : ℕ) (q : ℚ) (k : ℤ) :
    rnd p (2 ^ k * q) = 2 ^ k * rnd p q := by
  rcases lt_trichotomy q 0 with h | h | h
  · have h1 : (0:ℚ) < -q := by linarith
    have h2 : 2 ^ k * q = -(2 ^ k * -q) := by ring
    rw [h2, rnd_neg, rnd_pos_eq p (by positivity : (0:ℚ) < 2 ^ k * -q),
      rndPos_scale p h1 k, show q = -(-q) by ring, rnd_neg, rnd_pos_eq p h1]
    ring
  · rw [h, mul_zero, rnd_zero, mul_zero]
  · rw [rnd_pos_eq p (by positivity : (0:ℚ) < 2 ^ k * q), rnd_pos_eq p h,
      rndPos_scale p h k]

theorem rnd_idem {p : ℕ} (hp : 1 ≤ p) (q : ℚ) : rnd p (rnd p q) = rnd p q := by
  have key : ∀ r : ℚ, 0 < r → rnd p (rndPos p r) = rndPos p r := by
    intro r hr
    obtain ⟨hs1, hs2⟩ := rndPos_scaled_bounds hr p
    set x := r * 2 ^ ((p : ℤ) - 1 - qExp r) with hx
    have hint : ((2 ^ (p - 1) : ℕ) : ℚ) ≤ x := by
      rw [← two_zpow_pred hp]; exact hs1
    have hfl : ((2 ^ (p - 1) : ℕ) : ℤ) ≤ ⌊x⌋ := Int.le_floor.2 (by exact_mod_cast hint)
    have hR1 : ((2 ^ (p - 1) : ℕ) : ℤ) ≤ RHE x := le_trans hfl (RHE_floor_le x)
    have hint2 : x < ((2 ^ p : ℕ) : ℚ) := by
      rw [← two_zpow_natCast]; exact hs2
    have hfl2 : ⌊x⌋ < ((2 ^ p : ℕ) : ℤ) := Int.floor_lt.2 (by exact_mod_cast hint2)
    have hR2 : RHE x ≤ ((2 ^ p : ℕ) : ℤ) := le_trans (RHE_le_floor_add_one x) (by omega)
    have hone : (0:ℤ) < (2:ℤ) ^ (p - 1) := by positivity
    have hnz : RHE x ≠ 0 := by
      have : ((2 ^ (p - 1) : ℕ) : ℤ) = (2:ℤ) ^ (p - 1) := by push_cast; ring
      omega
    have habs : (RHE x).natAbs ≤ 2 ^ p := by
      have hc1 : ((2 ^ p : ℕ) : ℤ) = (2:ℤ) ^ p := by push_cast; ring
      have hc2 : (0:ℤ) ≤ ((2 ^ (p - 1) : ℕ) : ℤ) := by positivity
      omega
    rw [rndPos_def, ← hx]
    exact rnd_fix_int hp hnz habs _
  rcases lt_trichotomy q 0 with h | h | h
  · have h1 : (0:ℚ) < -q := by linarith
    have hq' : rnd p q = -(rndPos p (-q)) := by
      rw [rnd, if_neg (by linarith), if_pos h]
    rw [hq', rnd_neg, key (-q) h1]
  · rw [h, rnd_zero, rnd_zero]
  · rw [rnd_pos_eq p h, key q h]

theorem frep_rnd {p : ℕ} (hp : 1 ≤ p) (q : ℚ) : FRep p (rnd p q) :=
  rnd_idem hp q

theorem frep_zero (p : ℕ) : FRep p 0 := rnd_zero p

theorem frep_neg {p : ℕ} {q : ℚ} (h : FRep p q) : FRep p (-q) := by
  unfold FRep at *
  rw [rnd_neg, h]

theorem frep_scale {p : ℕ} {q : ℚ} (h : FRep p q) (k : ℤ) : FRep p (2 ^ k * q) := by
  unfold FRep at *
  rw [rnd_scale, h]

theorem frep_two_mul {p : ℕ} {q : ℚ} (h : FRep p q) : FRep p (2 * q) := by
  have := frep_scale h 1
  norm_num at this
  exact this

theorem frep_half {p : ℕ} {q : ℚ} (h : FRep p q) : FRep p (q / 2) := by
  have := frep_scale h (-1)
  rw [zpow_neg_one] at this
  have he : (2:ℚ)⁻¹ * q = q / 2 := by ring
  rwa [he] at this

theorem frep_int {p : ℕ} (hp : 1 ≤ p) {m : ℤ} (h : m.natAbs ≤ 2 ^ p) :
    FRep p (m : ℚ) := by
  rcases eq_or_ne m 0 with h0 | h0
  · rw [h0]; exact_mod_cast frep_zero p
  · unfold FRep
    have := rnd_fix_int hp h0 h 0
    simpa using this

theorem rnd_le_double {p : ℕ} (hp : 1 ≤ p) {q : ℚ} (hq : 0 ≤ q) :
    rnd p q ≤ 2 * q := by
  rcases lt_or_eq_of_le hq with h | h
  · rw [rnd_pos_eq p h]
    have herr := rndPos_err h p
    rw [abs_le] at herr
    have h1 : (2:ℚ) ^ (qExp q - (p : ℤ)) ≤ 2 ^ qExp q :=
      zpow_le_zpow_right₀ one_le_two (by omega)
    have h2 : (2:ℚ) ^ qExp q ≤ q := (qExp_spec h).1
    linarith [herr.2]
  · rw [← h, rnd_zero]
    norm_num

theorem rnd_div_nat_le_half {p : ℕ} (hp : 1 ≤ p) {d : ℚ} (hd : 0 ≤ d)
    (hrep : FRep p d) {n : ℕ} (hn : 2 ≤ n) : rnd p (d / n) ≤ d / 2 := by
  have hn0 : (0:ℚ) < (n : ℚ) := by exact_mod_cast lt_of_lt_of_le (by norm_num) hn
  have hdiv : d / (n : ℚ) ≤ d / 2 := by
    apply div_le_div_of_nonneg_left hd (by norm_num)
    · exact_mod_cast hn
  calc rnd p (d / n) ≤ rnd p (d / 2) := rnd_mono hp hdiv
  _ = d / 2 := frep_half hrep

theorem mpfr_addInf_nonfin (s : Bool) (z : MFloat) :
    (mpfr_addInf s z).isFin = false := by
  cases z with
  | nan => rfl
  | fin a => rfl
  | inf t =>
      show (if s = t then MFloat.inf s else MFloat.nan).isFin = false
      split <;> rfl

theorem mpfr_sub_nonfin_left (p : ℕ) {x : MFloat} (y : MFloat)
    (h : x.isFin = false) : (mpfr_sub p x y).isFin = false := by
  cases x with
  | fin a => simp [MFloat.isFin] at h
  | nan => cases y <;> rfl
  | inf s =>
      cases y with
      | nan => rfl
      | fin b => rfl
      | inf t =>
          show (if s = t then MFloat.nan else MFloat.inf s).isFin = false
          split <;> rfl

theorem mpfr_sub_nonfin_right (p : ℕ) (x : MFloat) {y : MFloat}
    (h : y.isFin = false) : (mpfr_sub p x y).isFin = false := by
  cases y with
  | fin a => simp [MFloat.isFin] at h
  | nan => cases x <;> rfl
  | inf t =>
      cases x with
      | nan => rfl
      | fin b => rfl
      | inf s =>
          show (if s = t then MFloat.nan else MFloat.inf s).isFin = false
          split <;> rfl

theorem mpfr_add_nonfin_left (p : ℕ) {x : MFloat} (y : MFloat)
    (h : x.isFin = false) : (mpfr_add p x y).isFin = false := by
  cases x with
  | fin a => simp [MFloat.isFin] at h
  | nan => cases y <;> rfl
  | inf s =>
      cases y with
      | nan => rfl
      | fin b => rfl
      | inf t =>
          show (if s = t then MFloat.inf s else MFloat.nan).isFin = false
          split <;> rfl

theorem mpfr_add_nonfin_right (p : ℕ) (x : MFloat) {y : MFloat}
    (h : y.isFin = false) : (mpfr_add p x y).isFin = false := by
  cases y with
  | fin a => simp [MFloat.isFin] at h
  | nan => cases x <;> rfl
  | inf t =>
      cases x with
      | nan => rfl
      | fin b => rfl
      | inf s =>
          show (if s = t then MFloat.inf s else MFloat.nan).isFin = false
          split <;> rfl

theorem mpfr_div_ui_nonfin (p : ℕ) {x : MFloat} (n : ℕ)
    (h : x.isFin = false) : (mpfr_div_ui p x n).isFin = false := by
  cases x with
  | fin a => simp [MFloat.isFin] at h
  | nan => rfl
  | inf s => rfl

theorem mpfr_fma_nonfin_first (p : ℕ) {x : MFloat} (y z : MFloat)
    (h : x.isFin = false) : (mpfr_fma p x y z).isFin = false := by
  cases x with
  | fin a => simp [MFloat.isFin] at h
  | nan => cases y <;> cases z <;> rfl
  | inf s =>
      cases y with
      | nan => cases z <;> rfl
      | inf t => exact mpfr_addInf_nonfin _ _
      | fin b =>
          show (if b = 0 then MFloat.nan
            else mpfr_addInf (xor s (decide (b < 0))) z).isFin = false
          split
          · rfl
          · exact mpfr_addInf_nonfin _ _

theorem stats_reldiff_zero_ref_nonfin (y : MFloat) :
    (stats_reldiff y (.fin 0)).isFin = false := by
  have habs : mpfr_abs MPFR_PREC (.fin 0) = .fin 0 := by
    simp [mpfr_abs, rnd_zero]
  rw [stats_reldiff, habs]
  cases y with
  | nan => rfl
  | inf s => rfl
  | fin a =>
      have hdiv : mpfr_div MPFR_PREC (.fin (rnd MPFR_PREC (a - 0))) (.fin 0) =
          if rnd MPFR_PREC (a - 0) = 0 then MFloat.nan
          else MFloat.inf (decide (rnd MPFR_PREC (a - 0) < 0)) := by
        simp [mpfr_div]
      show (mpfr_div MPFR_PREC (.fin (rnd MPFR_PREC (a - 0))) (.fin 0)).isFin = false
      rw [hdiv]
      split <;> rfl

theorem stats_add_poison (s : stats_t) (y : MFloat) :
    (stats_add s y (.fin 0)).mean.isFin = false ∧
      (stats_add s y (.fin 0)).m2.isFin = false := by
  have hrel := stats_reldiff_zero_ref_nonfin y
  have hdelta : (mpfr_sub MPFR_PREC (stats_reldiff y (.fin 0)) s.mean).isFin = false :=
    mpfr_sub_nonfin_left _ _ hrel
  constructor
  · exact mpfr_add_nonfin_right _ _ (mpfr_div_ui_nonfin _ _ hdelta)
  · exact mpfr_fma_nonfin_first _ _ _ hdelta

theorem stats_add_keeps_nonfin (s : stats_t) (y ref : MFloat)
    (hm : s.mean.isFin = false) :
    (stats_add s y ref).mean.isFin = false ∧
      (stats_add s y ref).m2.isFin = false := by
  have hdelta : (mpfr_sub MPFR_PREC (stats_reldiff y ref) s.mean).isFin = false :=
    mpfr_sub_nonfin_right _ _ hm
  constructor
  · exact mpfr_add_nonfin_left _ _ hm
  · exact mpfr_fma_nonfin_first _ _ _ hdelta

theorem statsSteps_keeps_nonfin (l : List (MFloat × MFloat)) :
    ∀ s : stats_t, s.mean.isFin = false → s.m2.isFin = false →
      (statsSteps s l).mean.isFin = false ∧ (statsSteps s l).m2.isFin = false := by
  induction l with
  | nil => intro s h1 h2; exact ⟨h1, h2⟩
  | cons x xs ih =>
      intro s h1 h2
      have step := stats_add_keeps_nonfin s x.1 x.2 h1
      exact ih (stats_add s x.1 x.2) step.1 step.2

/-- Claim C1.  stats_add increments the sample counter by exactly one and
performs precisely the stated Welford steps at the 512-bit working precision:
diff = y - ref, reldiff = diff / abs ref, delta = reldiff - mean, the new
mean = old mean + delta/n with the already-incremented n, and the new
m2 = fma(delta, reldiff - new mean, old m2); the distribution and generator
name fields are unchanged and the cell has no other fields. -/
theorem stats_add_welford_steps (s : stats_t) (y ref : MFloat) :
    stats_add s y ref =
      { distribution := s.distribution
        generator := s.generator
        n := s.n + 1
        mean := mpfr_add MPFR_PREC s.mean
          (mpfr_div_ui MPFR_PREC
            (mpfr_sub MPFR_PREC
              (mpfr_div MPFR_PREC (mpfr_sub MPFR_PREC y ref) (mpfr_abs MPFR_PREC ref))
              s.mean)
            (s.n + 1))
        m2 := mpfr_fma MPFR_PREC
          (mpfr_sub MPFR_PREC
            (mpfr_div MPFR_PREC (mpfr_sub MPFR_PREC y ref) (mpfr_abs MPFR_PREC ref))
            s.mean)
          (mpfr_sub MPFR_PREC
            (mpfr_div MPFR_PREC (mpfr_sub MPFR_PREC y ref) (mpfr_abs MPFR_PREC ref))
            (mpfr_add MPFR_PREC s.mean
              (mpfr_div_ui MPFR_PREC
                (mpfr_sub MPFR_PREC
                  (mpfr_div MPFR_PREC (mpfr_sub MPFR_PREC y ref) (mpfr_abs MPFR_PREC ref))
                  s.mean)
                (s.n + 1))))
          s.m2 } := rfl

/-- Claim C4.  A record call with reference exactly zero computes a
non-finite relative error (the division is not guarded), and after that call
the cell's mean and m2 are non-finite and stay non-finite after every
subsequent record call, whatever its arguments: the cell is permanently
poisoned. -/
theorem zero_reference_poisons_cell (s : stats_t) (y : MFloat)
    (l : List (MFloat × MFloat)) :
    (stats_reldiff y (.fin 0)).isFin = false ∧
      (statsSteps (stats_add s y (.fin 0)) l).mean.isFin = false ∧
      (statsSteps (stats_add s y (.fin 0)) l).m2.isFin = false := by
  have hp := stats_add_poison s y
  exact ⟨stats_reldiff_zero_ref_nonfin y,
    statsSteps_keeps_nonfin l _ hp.1 hp.2⟩

theorem mPREC_ge_one : 1 ≤ MPFR_PREC := by norm_num [MPFR_PREC]

theorem mpfr_sub_fin (p : ℕ) (a b : ℚ) :
    mpfr_sub p (.fin a) (.fin b) = .fin (rnd p (a - b)) := rfl

theorem mpfr_add_fin (p : ℕ) (a b : ℚ) :
    mpfr_add p (.fin a) (.fin b) = .fin (rnd p (a + b)) := rfl

theorem mpfr_abs_fin (p : ℕ) (a : ℚ) :
    mpfr_abs p (.fin a) = .fin (rnd p |a|) := rfl

theorem mpfr_fma_fin (p : ℕ) (a b c : ℚ) :
    mpfr_fma p (.fin a) (.fin b) (.fin c) = .fin (rnd p (a * b + c)) := rfl

theorem mpfr_div_fin (p : ℕ) (a : ℚ) {b : ℚ} (hb : b ≠ 0) :
    mpfr_div p (.fin a) (.fin b) = .fin (rnd p (a / b)) := by
  show (if b = 0 then (if a = 0 then MFloat.nan else MFloat.inf (decide (a < 0)))
    else MFloat.fin (rnd p (a / b))) = .fin (rnd p (a / b))
  rw [if_neg hb]

theorem mpfr_div_ui_fin (p : ℕ) (a : ℚ) {n : ℕ} (hn : n ≠ 0) :
    mpfr_div_ui p (.fin a) n = .fin (rnd p (a / (n : ℚ))) := by
  show (if n = 0 then (if a = 0 then MFloat.nan else MFloat.inf (decide (a < 0)))
    else MFloat.fin (rnd p (a / (n : ℚ)))) = .fin (rnd p (a / (n : ℚ)))
  rw [if_neg hn]

theorem stats_add_eval (s : stats_t) {y ref : MFloat} {r m b : ℚ}
    (hrel : stats_reldiff y ref = .fin r) (hm : s.mean = .fin m)
    (hb : s.m2 = .fin b) :
    stats_add s y ref =
      ⟨s.distribution, s.generator, s.n + 1,
        .fin (rnd MPFR_PREC
          (m + rnd MPFR_PREC (rnd MPFR_PREC (r - m) / ((s.n + 1 : ℕ) : ℚ)))),
        .fin (rnd MPFR_PREC
          (rnd MPFR_PREC (r - m) *
            rnd MPFR_PREC (r - rnd MPFR_PREC
              (m + rnd MPFR_PREC (rnd MPFR_PREC (r - m) / ((s.n + 1 : ℕ) : ℚ)))) +
            b))⟩ := by
  simp only [stats_add]
  rw [hrel, hm, hb, mpfr_sub_fin, mpfr_div_ui_fin _ _ (by omega), mpfr_add_fin,
    mpfr_sub_fin, mpfr_fma_fin]

theorem stats_reldiff_equal_fin {q : ℚ} (hq : q ≠ 0) :
    stats_reldiff (.fin q) (.fin q) = .fin 0 := by
  unfold stats_reldiff
  have hsub : mpfr_sub MPFR_PREC (.fin q) (.fin q) = .fin 0 := by
    rw [mpfr_sub_fin, sub_self, rnd_zero]
  have hne : rnd MPFR_PREC |q| ≠ 0 := by
    rw [Ne, rnd_eq_zero_iff mPREC_ge_one]
    exact fun h => hq (abs_eq_zero.1 h)
  rw [hsub, mpfr_abs_fin, mpfr_div_fin _ _ hne, zero_div, rnd_zero]

/-- Claim C8 counterexample.  The claim asserts mean = 0 and n = 1 after one
record call on a fresh cell with observed equal to reference, for every such
pair; it fails at the equal pair (0, 0): the relative error is 0/0 = NaN and
the resulting mean is NaN, not zero. -/
theorem record_equal_zero_pair_refutes :
    (stats_add (stats_init "d" "g") (.fin 0) (.fin 0)).mean ≠ .fin 0 := by
  intro hc
  have h := (stats_add_poison (stats_init "d" "g") (.fin 0)).1
  rw [hc] at h
  simp [MFloat.isFin] at h

/-- Claim C8 as amended.  After exactly one record call on a freshly
initialized cell with observed equal to reference, both finite with nonzero
value, the cell's mean is exactly 0 and its sample count is 1.  (The original
claim, quantified over every equal pair, fails at the pair (0, 0); equal
non-finite inputs also give NaN.) -/
theorem record_equal_inputs_amended (d g : String) (q : ℚ) (hq : q ≠ 0) :
    (stats_add (stats_init d g) (.fin q) (.fin q)).mean = .fin 0 ∧
      (stats_add (stats_init d g) (.fin q) (.fin q)).n = 1 := by
  have heval := stats_add_eval (stats_init d g)
    (stats_reldiff_equal_fin hq) rfl rfl
  rw [heval]
  constructor
  · show MFloat.fin (rnd MPFR_PREC
      (0 + rnd MPFR_PREC (rnd MPFR_PREC ((0:ℚ) - 0) / (((0 + 1 : ℕ) : ℚ))))) = .fin 0
    norm_num [rnd_zero]
  · rfl

/-- Claim C8 witness: the amended statement at the concrete nonzero pair
(1, 1). -/
theorem record_equal_inputs_witness :
    (stats_add (stats_init "a" "b") (.fin 1) (.fin 1)).mean = .fin 0 ∧
      (stats_add (stats_init "a" "b") (.fin 1) (.fin 1)).n = 1 :=
  record_equal_inputs_amended "a" "b" 1 (by norm_num)

theorem frep_one {p : ℕ} (hp : 1 ≤ p) : FRep p 1 := by
  have h2 : (1:ℤ) ≤ 2 ^ p := by
    have : (0:ℤ) < 2 ^ p := by positivity
    omega
  have h := rnd_fix_pos hp (show (0:ℤ) < 1 by norm_num) h2 0
  unfold FRep
  simpa using h

theorem frep_two {p : ℕ} (hp : 1 ≤ p) : FRep p 2 := by
  have h := frep_two_mul (frep_one hp)
  simpa using h

theorem stats_reldiff_fin_frep {y ref : MFloat} {e : ℚ}
    (h : stats_reldiff y ref = .fin e) : FRep MPFR_PREC e := by
  unfold stats_reldiff at h
  revert h
  cases mpfr_sub MPFR_PREC y ref with
  | nan => intro h; simp [mpfr_div] at h
  | inf s =>
      cases mpfr_abs MPFR_PREC ref with
      | nan => intro h; simp [mpfr_div] at h
      | inf t => intro h; simp [mpfr_div] at h
      | fin b => intro h; simp [mpfr_div] at h
  | fin a =>
      cases mpfr_abs MPFR_PREC ref with
      | nan => intro h; simp [mpfr_div] at h
      | inf t =>
          intro h
          have h0 : (0:ℚ) = e := by
            have : MFloat.fin (0:ℚ) = MFloat.fin e := h
            injection this
          rw [← h0]
          exact frep_zero _
      | fin b =>
          intro h
          by_cases hb : b = 0
          · subst hb
            by_cases ha : a = 0 <;> simp [mpfr_div, ha] at h
          · rw [mpfr_div_fin _ _ hb] at h
            have h0 : rnd MPFR_PREC (a / b) = e := by injection h
            rw [← h0]
            exact frep_rnd mPREC_ge_one _

theorem welford_pm_core (d g : String) (y1 r1 y2 r2 : MFloat) (e : ℚ)
    (h1 : stats_reldiff y1 r1 = .fin e)
    (h2 : stats_reldiff y2 r2 = .fin (-e)) :
    stats_add (stats_add (stats_init d g) y1 r1) y2 r2 =
      ⟨d, g, 2, .fin 0, .fin (rnd MPFR_PREC (2 * e ^ 2))⟩ ∧
    (stats_print (stats_add (stats_add (stats_init d g) y1 r1) y2 r2)).variance =
      .fin (rnd MPFR_PREC (2 * e ^ 2)) := by
  have hfrep : FRep MPFR_PREC e := stats_reldiff_fin_frep h1
  have hre : rnd MPFR_PREC e = e := hfrep
  have hrne : rnd MPFR_PREC (-e) = -e := frep_neg hfrep
  have hr2e : rnd MPFR_PREC (-(2 * e)) = -(2 * e) := frep_neg (frep_two_mul hfrep)
  have hs1 : stats_add (stats_init d g) y1 r1 = ⟨d, g, 1, .fin e, .fin 0⟩ := by
    rw [stats_add_eval (stats_init d g) h1 rfl rfl]
    have ha : rnd MPFR_PREC (e - 0) = e := by rw [sub_zero]; exact hre
    have hb : rnd MPFR_PREC (e / ((0 + 1 : ℕ) : ℚ)) = e := by
      norm_num
      exact hre
    simp only [stats_init, ha, hb, hre]
    norm_num [rnd_zero, hre]
  rw [hs1]
  have hmean : rnd MPFR_PREC
      (e + rnd MPFR_PREC (rnd MPFR_PREC (-e - e) / ((1 + 1 : ℕ) : ℚ))) = 0 := by
    rw [show (-e - e : ℚ) = -(2 * e) by ring, hr2e,
      show (-(2 * e) / ((1 + 1 : ℕ) : ℚ)) = -e by push_cast; ring, hrne,
      show (e + -e : ℚ) = 0 by ring, rnd_zero]
  have hm2 : rnd MPFR_PREC
      (rnd MPFR_PREC (-e - e) *
        rnd MPFR_PREC (-e - rnd MPFR_PREC
          (e + rnd MPFR_PREC (rnd MPFR_PREC (-e - e) / ((1 + 1 : ℕ) : ℚ)))) + 0) =
      rnd MPFR_PREC (2 * e ^ 2) := by
    rw [show (-e - e : ℚ) = -(2 * e) by ring, hr2e,
      show (-(2 * e) / ((1 + 1 : ℕ) : ℚ)) = -e by push_cast; ring, hrne,
      show (e + -e : ℚ) = 0 by ring, rnd_zero, sub_zero, hrne]
    congr 1
    ring
  have hs2 : stats_add (⟨d, g, 1, .fin e, .fin 0⟩ : stats_t) y2 r2 =
      ⟨d, g, 2, .fin 0, .fin (rnd MPFR_PREC (2 * e ^ 2))⟩ := by
    rw [stats_add_eval _ h2 rfl rfl]
    show (⟨d, g, 1 + 1, _, _⟩ : stats_t) = _
    rw [hm2, hmean]
  rw [hs2]
  refine ⟨rfl, ?_⟩
  show (stats_print ⟨d, g, 2, .fin 0, .fin (rnd MPFR_PREC (2 * e ^ 2))⟩).variance = _
  have hpr : stats_print (⟨d, g, 2, .fin 0, .fin (rnd MPFR_PREC (2 * e ^ 2))⟩ : stats_t) =
      ⟨d, g, 2, .fin 0,
        mpfr_div_ui MPFR_PREC (.fin (rnd MPFR_PREC (2 * e ^ 2))) 1,
        mpfr_sqrt MPFR_PREC (mpfr_div_ui MPFR_PREC (.fin (rnd MPFR_PREC (2 * e ^ 2))) 1)⟩ := by
    unfold stats_print
    norm_num
  rw [hpr]
  show mpfr_div_ui MPFR_PREC (.fin (rnd MPFR_PREC (2 * e ^ 2))) 1 = _
  rw [mpfr_div_ui_fin _ _ (by norm_num)]
  rw [show (rnd MPFR_PREC (2 * e ^ 2) / ((1 : ℕ) : ℚ)) = rnd MPFR_PREC (2 * e ^ 2) by
    push_cast; ring]
  rw [rnd_idem mPREC_ge_one]

theorem stats_reldiff_two_one : stats_reldiff (.fin 2) (.fin 1) = .fin 1 := by
  have hra : rnd MPFR_PREC (1:ℚ) = 1 := frep_one mPREC_ge_one
  have e1 : mpfr_sub MPFR_PREC (.fin 2) (.fin 1) = .fin 1 := by
    rw [mpfr_sub_fin, show ((2:ℚ) - 1) = 1 by norm_num, hra]
  have e2 : mpfr_abs MPFR_PREC (.fin 1) = .fin 1 := by
    rw [mpfr_abs_fin, abs_one, hra]
  rw [stats_reldiff, e1, e2, mpfr_div_fin _ _ one_ne_zero, div_one, hra]

theorem stats_reldiff_zero_one : stats_reldiff (.fin 0) (.fin 1) = .fin (-1) := by
  have hra : rnd MPFR_PREC (1:ℚ) = 1 := frep_one mPREC_ge_one
  have hrn : rnd MPFR_PREC (-1:ℚ) = -1 := frep_neg (frep_one mPREC_ge_one)
  have e1 : mpfr_sub MPFR_PREC (.fin 0) (.fin 1) = .fin (-1) := by
    rw [mpfr_sub_fin, show ((0:ℚ) - 1) = -1 by norm_num, hrn]
  have e2 : mpfr_abs MPFR_PREC (.fin 1) = .fin 1 := by
    rw [mpfr_abs_fin, abs_one, hra]
  rw [stats_reldiff, e1, e2, mpfr_div_fin _ _ one_ne_zero, div_one, hrn]

/-- Claim C2 counterexample.  With relative errors +1 and -1 (inputs
(2, 1) and (0, 1), so e = 1), the mean is 0 but the printed variance with
the n-1 divisor is 2, not e² = 1: the sum of squared deviations of the two
points is 2e², and dividing by n-1 = 1 leaves 2e². -/
theorem welford_two_opposite_refutes :
    stats_reldiff (.fin 2) (.fin 1) = .fin 1 ∧
      stats_reldiff (.fin 0) (.fin 1) = .fin (-1) ∧
      (stats_print (stats_add (stats_add (stats_init "d" "g") (.fin 2) (.fin 1))
          (.fin 0) (.fin 1))).variance = .fin 2 ∧
      (MFloat.fin 2 : MFloat) ≠ .fin ((1:ℚ) ^ 2) := by
  have h1 := stats_reldiff_two_one
  have h2' : stats_reldiff (.fin 0) (.fin 1) = .fin (-(1:ℚ)) := by
    simpa using stats_reldiff_zero_one
  have hcore := welford_pm_core "d" "g" _ _ _ _ 1 h1 h2'
  refine ⟨h1, by simpa using h2', ?_, ?_⟩
  · rw [hcore.2]
    have hr2 : rnd MPFR_PREC (2 * (1:ℚ) ^ 2) = 2 := by
      rw [show (2 * (1:ℚ) ^ 2) = 2 by norm_num]
      exact frep_two mPREC_ge_one
    rw [hr2]
  · intro hc
    injection hc with hc'
    norm_num at hc'

/-- Claim C2 as amended.  Starting from a fresh cell, two record calls whose
computed relative errors are +e and -e (e finite, nonzero) leave mean
exactly 0, and the variance printed with the n-1 divisor is 2e² rounded once
to the 512-bit working precision (exactly 2e² whenever e² is representable) —
not e² as the original claim stated. -/
theorem welford_two_opposite_amended (d g : String) (y1 r1 y2 r2 : MFloat)
    (e : ℚ) (he : e ≠ 0)
    (h1 : stats_reldiff y1 r1 = .fin e)
    (h2 : stats_reldiff y2 r2 = .fin (-e)) :
    (stats_add (stats_add (stats_init d g) y1 r1) y2 r2).mean = .fin 0 ∧
      (stats_print (stats_add (stats_add (stats_init d g) y1 r1) y2 r2)).variance =
        .fin (rnd MPFR_PREC (2 * e ^ 2)) := by
  have hcore := welford_pm_core d g y1 r1 y2 r2 e h1 h2
  exact ⟨by rw [hcore.1], hcore.2⟩

/-- Claim C2 witness: the amended statement at the concrete inputs (2, 1)
and (0, 1), whose relative errors are +1 and -1. -/
theorem welford_two_opposite_witness :
    (stats_add (stats_add (stats_init "a" "b") (.fin 2) (.fin 1))
        (.fin 0) (.fin 1)).mean = .fin 0 ∧
      (stats_print (stats_add (stats_add (stats_init "a" "b") (.fin 2) (.fin 1))
          (.fin 0) (.fin 1))).variance = .fin (rnd MPFR_PREC (2 * (1:ℚ) ^ 2)) :=
  welford_two_opposite_amended "a" "b" _ _ _ _ 1 (by norm_num)
    stats_reldiff_two_one (by simpa using stats_reldiff_zero_one)

/-- Claim C3 counterexample.  The claim reads stats_print's variance/stddev
locals as persistent across calls (stats_print_keep models that reading):
printing a cell with n = 2, m2 = 2 and then a cell with n = 1 would show
variance 2 at the second call.  The source's locals are recreated by
MPFR_DECL_INIT on every call with value NaN, so the n = 1 report shows NaN,
which differs. -/
theorem stats_print_keep_refutes :
    (stats_print_keep
        (stats_print_keep (.nan, .nan)
          (⟨"dA", "gA", 2, .fin 0, .fin 2⟩ : stats_t)).2
        (⟨"dB", "gB", 1, .fin 0, .fin 0⟩ : stats_t)).1.variance = .fin 2 ∧
      (stats_print (⟨"dB", "gB", 1, .fin 0, .fin 0⟩ : stats_t)).variance = .nan ∧
      (MFloat.fin 2 : MFloat) ≠ .nan := by
  have hr2 : rnd MPFR_PREC (2:ℚ) = 2 := frep_two mPREC_ge_one
  have hv : mpfr_div_ui MPFR_PREC (.fin 2) (2 - 1) = .fin 2 := by
    rw [mpfr_div_ui_fin _ _ (show (2 - 1 : ℕ) ≠ 0 by norm_num),
      show ((2:ℚ) / ((2 - 1 : ℕ) : ℚ)) = 2 by norm_num, hr2]
  refine ⟨?_, ?_, by simp⟩
  · have hstep : (stats_print_keep
        (stats_print_keep (.nan, .nan)
          (⟨"dA", "gA", 2, .fin 0, .fin 2⟩ : stats_t)).2
        (⟨"dB", "gB", 1, .fin 0, .fin 0⟩ : stats_t)).1.variance =
        mpfr_div_ui MPFR_PREC (.fin 2) (2 - 1) := rfl
    rw [hstep, hv]
  · unfold stats_print
    rw [if_neg (by norm_num)]

/-- Claim C3 as amended.  stats_print is read-only (the embedding returns a
record and leaves the cell untouched, as the const-qualified source does);
when n > 1 it reports variance = m2/(n-1) and stddev = sqrt(variance) at the
512-bit working precision; when n ≤ 1 the variance and stddev it reports are
NaN — the value MPFR_DECL_INIT gives the per-call locals — every time, not
the values of the most recent previous computation. -/
theorem stats_print_eval (s : stats_t) :
    (1 < s.n →
      stats_print s =
        ⟨s.distribution, s.generator, s.n, s.mean,
          mpfr_div_ui MPFR_PREC s.m2 (s.n - 1),
          mpfr_sqrt MPFR_PREC (mpfr_div_ui MPFR_PREC s.m2 (s.n - 1))⟩) ∧
    (s.n ≤ 1 →
      (stats_print s).variance = .nan ∧ (stats_print s).stddev = .nan) := by
  constructor
  · intro h
    unfold stats_print
    rw [if_pos h]
  · intro h
    unfold stats_print
    rw [if_neg (by omega)]
    exact ⟨rfl, rfl⟩

/-- Claim C3 witness: the amended statement at two concrete cells, one with
n = 3 (the formulas apply) and one freshly initialized with n = 0 (the
report shows NaN). -/
theorem stats_print_eval_witness :
    stats_print (⟨"dA", "gA", 3, .fin 0, .fin 2⟩ : stats_t) =
      ⟨"dA", "gA", 3, .fin 0,
        mpfr_div_ui MPFR_PREC (.fin 2) (3 - 1),
        mpfr_sqrt MPFR_PREC (mpfr_div_ui MPFR_PREC (.fin 2) (3 - 1))⟩ ∧
      ((stats_print (stats_init "dB" "gB")).variance = .nan ∧
        (stats_print (stats_init "dB" "gB")).stddev = .nan) :=
  ⟨(stats_print_eval _).1 (by norm_num),
    (stats_print_eval (stats_init "dB" "gB")).2 (by norm_num [stats_init])⟩

theorem stats_add_n (s : stats_t) (y ref : MFloat) :
    (stats_add s y ref).n = s.n + 1 := rfl

/-- Claim C7.  In a run of exactly K full outer-loop iterations from startup,
each iteration draws one sample per distribution, computes one shared
reference sine per sample (engineIter feeds the same refsin (phase d) to all
four generators of row d), and calls stats_add exactly once per generator on
the corresponding cell, so after K iterations every one of the 3 x 4 cells
has sample count n = K, for every choice of reference-sine function,
generator functions and drawn phases. -/
theorem engineRun_counts (refsin : ℚ → MFloat) (gensin : Fin 4 → ℚ → MFloat)
    (phases : ℕ → Fin 3 → ℚ) (K : ℕ) (d : Fin 3) (g : Fin 4) :
    (engineRun refsin gensin phases K d g).n = K := by
  induction K with
  | zero => rfl
  | succ k ih =>
      show (stats_add (engineRun refsin gensin phases k d g)
        (gensin g (phases k d)) (refsin (phases k d))).n = k + 1
      rw [stats_add_n, ih]

theorem mtemp_ge_one : 1 ≤ mpfrtemp_prec := by norm_num [mpfrtemp_prec]

theorem nativeRep_widens {sig : ℕ} (hsig : sig ≤ mpfrtemp_prec) {v : ℚ}
    (h : NativeRep sig v) : rnd mpfrtemp_prec v = v := by
  obtain ⟨m, e, hv, hm⟩ := h
  rcases eq_or_ne m 0 with h0 | h0
  · rw [hv, h0]
    norm_num [rnd_zero]
  · rw [hv]
    apply rnd_fix_int mtemp_ge_one h0
    calc m.natAbs ≤ 2 ^ sig := hm
    _ ≤ 2 ^ mpfrtemp_prec := Nat.pow_le_pow_right (by norm_num) hsig

/-- Claim C9.  Each of the four candidate evaluators stores into the 144-bit
destination a value exactly equal to its native sine result: the widening
conversion of a binary32 (24-bit), binary64 (53-bit), x87 extended (64-bit)
or binary128 (113-bit) value into the 144-bit MPFR temporary is exact, since
every such significand fits in 144 bits; for the __float128 evaluator the
value additionally round-trips through an exact %Qa hexadecimal string (see
getsin_q). -/
theorem evaluators_widen_exactly (v : ℚ) :
    (NativeRep 24 v → getsin_flt v = .fin v) ∧
      (NativeRep 53 v → getsin_d v = .fin v) ∧
      (NativeRep 64 v → getsin_ld v = .fin v) ∧
      (NativeRep 113 v → getsin_q v = .fin v) := by
  refine ⟨fun h => ?_, fun h => ?_, fun h => ?_, fun h => ?_⟩
  · show MFloat.fin (rnd mpfrtemp_prec v) = .fin v
    rw [nativeRep_widens (by norm_num [mpfrtemp_prec]) h]
  · show MFloat.fin (rnd mpfrtemp_prec v) = .fin v
    rw [nativeRep_widens (by norm_num [mpfrtemp_prec]) h]
  · show MFloat.fin (rnd mpfrtemp_prec v) = .fin v
    rw [nativeRep_widens (by norm_num [mpfrtemp_prec]) h]
  · show MFloat.fin (rnd mpfrtemp_prec v) = .fin v
    rw [nativeRep_widens (by norm_num [mpfrtemp_prec]) h]

/-- Claim C9 witness: the four widenings at the concrete native value 3/4
(representable in every tier). -/
theorem evaluators_widen_witness :
    getsin_flt (3/4) = .fin (3/4) ∧ getsin_d (3/4) = .fin (3/4) ∧
      getsin_ld (3/4) = .fin (3/4) ∧ getsin_q (3/4) = .fin (3/4) := by
  have h4 : ((3:ℤ) : ℚ) * (2:ℚ) ^ (-2 : ℤ) = 3/4 := by
    rw [show (-2 : ℤ) = -((2:ℕ) : ℤ) by norm_num, zpow_neg, zpow_natCast]
    norm_num
  have hrep : ∀ sig : ℕ, 2 ≤ sig → NativeRep sig ((3:ℚ)/4) := by
    intro sig hs
    refine ⟨3, -2, h4.symm, ?_⟩
    calc (3:ℤ).natAbs = 3 := rfl
    _ ≤ 2 ^ 2 := by norm_num
    _ ≤ 2 ^ sig := Nat.pow_le_pow_right (by norm_num) hs
  obtain ⟨h1, h2, h3, hq⟩ := evaluators_widen_exactly ((3:ℚ)/4)
  exact ⟨h1 (hrep 24 (by norm_num)), h2 (hrep 53 (by norm_num)),
    h3 (hrep 64 (by norm_num)), hq (hrep 113 (by norm_num))⟩

theorem pi_gt_round_lo : (26353589 : ℝ) / 8388608 < Real.pi :=
  lt_trans (by norm_num) Real.pi_gt_d20

theorem pi_lt_round_hi : Real.pi < (26353591 : ℝ) / 8388608 :=
  lt_trans Real.pi_lt_d20 (by norm_num)

theorem two_zpow_neg_nat (n : ℕ) : (2:ℚ) ^ (-(n:ℤ)) = 1 / 2 ^ n := by
  rw [zpow_neg, zpow_natCast, one_div]

theorem mask_and_eq (u : ℕ) :
    u &&& 0x7F800000 = (u / 2 ^ 23 % 2 ^ 8) * 2 ^ 23 := by
  have h1 : (0x7F800000 : ℕ) = (2 ^ 8 - 1) <<< 23 := by
    rw [Nat.shiftLeft_eq]
    norm_num
  apply Nat.eq_of_testBit_eq
  intro i
  rw [Nat.testBit_and, h1,
    show u / 2 ^ 23 % 2 ^ 8 * 2 ^ 23 = (u / 2 ^ 23 % 2 ^ 8) <<< 23 by
      rw [Nat.shiftLeft_eq],
    Nat.testBit_shiftLeft, Nat.testBit_shiftLeft, Nat.testBit_two_pow_sub_one,
    Nat.testBit_mod_two_pow,
    show u / 2 ^ 23 = u >>> 23 by rw [Nat.shiftRight_eq_div_pow],
    Nat.testBit_shiftRight]
  rcases le_or_lt 23 i with h | h
  · rcases Nat.lt_or_ge (i - 23) 8 with h8 | h8
    · have h23 : 23 + (i - 23) = i := by omega
      rw [h23]
      cases hb : u.testBit i <;> simp [h, h8, hb]
    · simp [h, show ¬(i - 23 < 8) by omega]
  · simp [show ¬(23 ≤ i) by omega]

theorem exp_field_ne_255_of_mask {u : ℕ}
    (h : u &&& 0x7F800000 ≠ 0x7F800000) : u / 2 ^ 23 % 2 ^ 8 ≠ 255 := by
  intro hc
  apply h
  rw [mask_and_eq, hc]
  norm_num

theorem decode32_fin_of_guard {u : ℕ}
    (h : u &&& 0x7F800000 ≠ 0x7F800000) : ∃ q, decode32 u = .fin q := by
  simp only [decode32]
  rw [if_neg (exp_field_ne_255_of_mask h)]
  exact ⟨_, rfl⟩

theorem decode32_fin_bound {r : ℕ} (hr : r < gt_pid2_int) :
    ∃ q : ℚ, decode32 r = .fin q ∧ 0 ≤ q ∧ q ≤ 13176794 / 8388608 := by
  have hr' : r < 1070141403 := by
    simpa [gt_pid2_int] using hr
  have hs : r / 2 ^ 31 = 0 := Nat.div_eq_of_lt (by omega)
  have hemod : r / 2 ^ 23 % 2 ^ 8 = r / 2 ^ 23 := Nat.mod_eq_of_lt (by omega)
  have hm : r % 2 ^ 23 < 2 ^ 23 := Nat.mod_lt _ (by norm_num)
  simp only [decode32]
  rw [hemod, hs, if_neg (show ¬(r / 2 ^ 23 = 255) by omega),
    if_neg (show ¬((0:ℕ) = 1) by norm_num)]
  by_cases he0 : r / 2 ^ 23 = 0
  · rw [if_pos he0]
    refine ⟨_, rfl, by positivity, ?_⟩
    calc ((r % 2 ^ 23 : ℕ) : ℚ) * 2 ^ (-149 : ℤ)
        ≤ 2 ^ 23 * 2 ^ (-149 : ℤ) := by
          apply mul_le_mul_of_nonneg_right _ (two_zpow_pos _).le
          exact_mod_cast hm.le
    _ ≤ 13176794 / 8388608 := by
          rw [show (-149 : ℤ) = -((149 : ℕ) : ℤ) by norm_num, two_zpow_neg_nat]
          norm_num
  · rw [if_neg he0]
    refine ⟨_, rfl, by positivity, ?_⟩
    rcases le_or_lt (r / 2 ^ 23) 126 with he126 | he127
    · have hmant : ((2 ^ 23 + r % 2 ^ 23 : ℕ) : ℚ) ≤ 2 ^ 24 := by
        have : (2 ^ 23 + r % 2 ^ 23 : ℕ) ≤ 2 ^ 24 := by omega
        exact_mod_cast this
      have hexp : (2:ℚ) ^ (((r / 2 ^ 23 : ℕ) : ℤ) - 150) ≤ 2 ^ (-(24 : ℤ)) := by
        apply zpow_le_zpow_right₀ one_le_two
        omega
      calc ((2 ^ 23 + r % 2 ^ 23 : ℕ) : ℚ) * 2 ^ (((r / 2 ^ 23 : ℕ) : ℤ) - 150)
          ≤ 2 ^ 24 * 2 ^ (-(24 : ℤ)) := by
            apply mul_le_mul hmant hexp (two_zpow_pos _).le (by positivity)
      _ ≤ 13176794 / 8388608 := by
            rw [show (-(24:ℤ)) = -((24 : ℕ) : ℤ) by norm_num, two_zpow_neg_nat]
            norm_num
    · have he : r / 2 ^ 23 = 127 := by omega
      have hm4 : r % 2 ^ 23 ≤ 4788186 := by omega
      rw [he]
      have hz : (2:ℚ) ^ ((((127 : ℕ)) : ℤ) - 150) = 1 / 2 ^ 23 := by
        rw [show (((127 : ℕ)) : ℤ) - 150 = -((23 : ℕ) : ℤ) by norm_num, two_zpow_neg_nat]
      rw [hz]
      have hmant : ((2 ^ 23 + r % 2 ^ 23 : ℕ) : ℚ) ≤ 13176794 := by
        have : (2 ^ 23 + r % 2 ^ 23 : ℕ) ≤ 13176794 := by omega
        exact_mod_cast this
      calc ((2 ^ 23 + r % 2 ^ 23 : ℕ) : ℚ) * (1 / 2 ^ 23)
          ≤ 13176794 * (1 / 2 ^ 23) := by
            apply mul_le_mul_of_nonneg_right hmant (by positivity)
      _ = 13176794 / 8388608 := by norm_num

theorem flt_ge_one : 1 ≤ flt_prec := by norm_num [flt_prec]

theorem getrandom_2_eval {k : ℕ} (hk : k < gt_pid2_ls23_int) :
    getrandom_2 k = .fin ((k : ℚ) / 2 ^ 23) ∧ rnd flt_prec (k : ℚ) = (k : ℚ) := by
  have hk' : k < 13176795 := by simpa [gt_pid2_ls23_int] using hk
  have hconv : rnd flt_prec (k : ℚ) = (k : ℚ) := by
    rcases Nat.eq_zero_or_pos k with h0 | h0
    · subst h0
      simpa using rnd_zero flt_prec
    · have hbound : ((k : ℤ)) ≤ 2 ^ flt_prec := by
        have : (k : ℤ) < 2 ^ 24 := by exact_mod_cast lt_trans hk' (by norm_num)
        norm_num [flt_prec]
        omega
      have h := rnd_fix_pos flt_ge_one
        (show (0:ℤ) < (k : ℤ) by exact_mod_cast h0) hbound 0
      simpa using h
  refine ⟨?_, hconv⟩
  show MFloat.fin (rnd flt_prec (rnd flt_prec (k : ℚ) / 2 ^ 23)) = _
  rw [hconv]
  have hsc : (k : ℚ) / 2 ^ 23 = 2 ^ (-((23:ℕ):ℤ)) * (k : ℚ) := by
    rw [two_zpow_neg_nat]
    ring
  rw [hsc, rnd_scale, hconv]

theorem bound_lt_half_pi : (13176794 : ℝ) / 8388608 < Real.pi / 2 := by
  linarith [pi_gt_round_lo]

/-- Claim C5.  For every state of the random source, each distribution
returns a finite float (never NaN or an infinity): getrandom_1 for every
drawn integer below gt_pid2_int, getrandom_2 for every drawn integer below
gt_pid2_ls23_int, and getrandom_3 for every 32-bit pattern passing its
exponent-field guard; the first two additionally return a value x with
0 ≤ x < π/2. -/
theorem distributions_in_range :
    (∀ r : ℕ, r < gt_pid2_int →
      ∃ q : ℚ, getrandom_1 r = .fin q ∧ 0 ≤ q ∧ (q : ℝ) < Real.pi / 2) ∧
      (∀ k : ℕ, k < gt_pid2_ls23_int →
        ∃ q : ℚ, getrandom_2 k = .fin q ∧ 0 ≤ q ∧ (q : ℝ) < Real.pi / 2) ∧
      (∀ u : ℕ, u &&& 0x7F800000 ≠ 0x7F800000 →
        ∃ q : ℚ, getrandom_3 u = .fin q) := by
  refine ⟨?_, ?_, ?_⟩
  · intro r hr
    obtain ⟨q, hdec, hq0, hqb⟩ := decode32_fin_bound hr
    refine ⟨q, hdec, hq0, ?_⟩
    have hcast : (q : ℝ) ≤ (13176794 : ℝ) / 8388608 := by
      have : ((13176794 / 8388608 : ℚ) : ℝ) = (13176794 : ℝ) / 8388608 := by
        push_cast
        ring
      rw [← this]
      exact_mod_cast hqb
    exact lt_of_le_of_lt hcast bound_lt_half_pi
  · intro k hk
    obtain ⟨hval, _⟩ := getrandom_2_eval hk
    have hk' : k ≤ 13176794 := by
      have := hk
      simp [gt_pid2_ls23_int] at this
      omega
    refine ⟨_, hval, by positivity, ?_⟩
    have hle : ((k : ℚ) / 2 ^ 23 : ℚ) ≤ (13176794 / 8388608 : ℚ) := by
      rw [div_le_div_iff (by norm_num) (by norm_num)]
      have : ((k : ℚ)) ≤ 13176794 := by exact_mod_cast hk'
      nlinarith
    have hcast : (((k : ℚ) / 2 ^ 23 : ℚ) : ℝ) ≤ (13176794 : ℝ) / 8388608 := by
      have h2 : ((13176794 / 8388608 : ℚ) : ℝ) = (13176794 : ℝ) / 8388608 := by
        push_cast
        ring
      rw [← h2]
      exact_mod_cast hle
    exact lt_of_le_of_lt hcast bound_lt_half_pi
  · intro u hu
    exact decode32_fin_of_guard hu

/-- Claim C5 witness: the three statements at the concrete draws r = 0,
k = 0, u = 0 (pattern 0 passes the exponent-field guard). -/
theorem distributions_in_range_witness :
    (∃ q : ℚ, getrandom_1 0 = .fin q ∧ 0 ≤ q ∧ (q : ℝ) < Real.pi / 2) ∧
      (∃ q : ℚ, getrandom_2 0 = .fin q ∧ 0 ≤ q ∧ (q : ℝ) < Real.pi / 2) ∧
      (∃ q : ℚ, getrandom_3 0 = .fin q) :=
  ⟨distributions_in_range.1 0 (by norm_num [gt_pid2_int]),
    distributions_in_range.2.1 0 (by norm_num [gt_pid2_ls23_int]),
    distributions_in_range.2.2 0 (by simp)⟩

/-- Claim C6.  The hardcoded constant gt_pid2_ls23_int = 13176795 equals
round(2^23 * π/2); every value produced by getrandom_2 from a drawn integer
k < 13176795 (the draw gmp_urandomm_ui is uniform on [0, M) by the GMP
contract) is exactly k/2^23 — the integer-to-binary32 conversion and the
division by 2^23 introduce no rounding — and lies in [0, π/2). -/
theorem uniform_small_exact :
    (round ((2:ℝ) ^ 23 * (Real.pi / 2)) = 13176795 ∧ gt_pid2_ls23_int = 13176795) ∧
      (∀ k : ℕ, k < gt_pid2_ls23_int →
        rnd flt_prec (k : ℚ) = (k : ℚ) ∧
          getrandom_2 k = .fin ((k : ℚ) / 2 ^ 23) ∧
          0 ≤ ((k : ℚ) / 2 ^ 23) ∧ (((k : ℚ) / 2 ^ 23 : ℚ) : ℝ) < Real.pi / 2) := by
  constructor
  · refine ⟨?_, rfl⟩
    have h23 : (2:ℝ) ^ 23 = 8388608 := by norm_num
    rw [round_eq, h23]
    have hfl : (⌊(8388608:ℝ) * (Real.pi / 2) + 1 / 2⌋ : ℤ) = 13176795 := by
      rw [Int.floor_eq_iff]
      constructor
      · push_cast
        linarith [pi_gt_round_lo]
      · push_cast
        linarith [pi_lt_round_hi]
    exact hfl
  · intro k hk
    obtain ⟨hval, hconv⟩ := getrandom_2_eval hk
    have hrange := distributions_in_range.2.1 k hk
    obtain ⟨q, hq, hq0, hqpi⟩ := hrange
    have hqe : q = (k : ℚ) / 2 ^ 23 := by
      rw [hval] at hq
      injection hq with hq'
      exact hq'.symm
    subst hqe
    exact ⟨hconv, hval, hq0, hqpi⟩

/-- Claim C6 witness: the exactness and range statement at the concrete draw
k = 3. -/
theorem uniform_small_exact_witness :
    rnd flt_prec ((3 : ℕ) : ℚ) = ((3 : ℕ) : ℚ) ∧
      getrandom_2 3 = .fin (((3 : ℕ) : ℚ) / 2 ^ 23) ∧
      0 ≤ (((3 : ℕ) : ℚ) / 2 ^ 23) ∧
      ((((3 : ℕ) : ℚ) / 2 ^ 23 : ℚ) : ℝ) < Real.pi / 2 :=
  uniform_small_exact.2 3 (by norm_num [gt_pid2_ls23_int])

theorem rnd_ge_double {p : ℕ} (hp : 1 ≤ p) {q : ℚ} (hq : q ≤ 0) :
    2 * q ≤ rnd p q := by
  have h := rnd_le_double hp (show (0:ℚ) ≤ -q by linarith)
  rw [rnd_neg] at h
  linarith

theorem rnd_le_zero {p : ℕ} (hp : 1 ≤ p) {q : ℚ} (hq : q ≤ 0) : rnd p q ≤ 0 := by
  calc rnd p q ≤ rnd p 0 := rnd_mono hp hq
  _ = 0 := rnd_zero p

theorem rnd_div_nat_ge_half {p : ℕ} (hp : 1 ≤ p) {d : ℚ} (hd : d ≤ 0)
    (hrep : FRep p d) {n : ℕ} (hn : 2 ≤ n) : d / 2 ≤ rnd p (d / n) := by
  have h1 : (-d) / (n : ℚ) ≤ (-d) / 2 := by
    apply div_le_div_of_nonneg_left (by linarith) (by norm_num)
    exact_mod_cast hn
  have e1 : (-d) / (n : ℚ) = -(d / (n : ℚ)) := by ring
  have e2 : (-d) / 2 = -(d / 2) := by ring
  have hdiv : d / 2 ≤ d / (n : ℚ) := by
    rw [e1, e2] at h1
    linarith
  calc d / 2 = rnd p (d / 2) := (frep_half hrep).symm
  _ ≤ rnd p (d / n) := rnd_mono hp hdiv

theorem welford_nonneg_core {r m : ℚ} (hrm : m ≤ r) (hr : FRep MPFR_PREC r)
    (hm : FRep MPFR_PREC m) {n : ℕ} (hn : 2 ≤ n) :
    0 ≤ rnd MPFR_PREC (r - m) ∧
      0 ≤ rnd MPFR_PREC (r - rnd MPFR_PREC
        (m + rnd MPFR_PREC (rnd MPFR_PREC (r - m) / (n : ℚ)))) := by
  have hd0 : 0 ≤ rnd MPFR_PREC (r - m) := rnd_nonneg mPREC_ge_one (by linarith)
  have hdrep : FRep MPFR_PREC (rnd MPFR_PREC (r - m)) := frep_rnd mPREC_ge_one _
  have hdub : rnd MPFR_PREC (r - m) ≤ 2 * (r - m) :=
    rnd_le_double mPREC_ge_one (by linarith)
  have ht0 : 0 ≤ rnd MPFR_PREC (rnd MPFR_PREC (r - m) / (n : ℚ)) := by
    apply rnd_nonneg mPREC_ge_one
    positivity
  have htle : rnd MPFR_PREC (rnd MPFR_PREC (r - m) / (n : ℚ)) ≤
      rnd MPFR_PREC (r - m) / 2 :=
    rnd_div_nat_le_half mPREC_ge_one hd0 hdrep hn
  have hMle : rnd MPFR_PREC
      (m + rnd MPFR_PREC (rnd MPFR_PREC (r - m) / (n : ℚ))) ≤ r := by
    calc rnd MPFR_PREC (m + rnd MPFR_PREC (rnd MPFR_PREC (r - m) / (n : ℚ)))
        ≤ rnd MPFR_PREC r := rnd_mono mPREC_ge_one (by linarith)
    _ = r := hr
  exact ⟨hd0, rnd_nonneg mPREC_ge_one (by linarith)⟩

theorem welford_nonpos_core {r m : ℚ} (hrm : r ≤ m) (hr : FRep MPFR_PREC r)
    (hm : FRep MPFR_PREC m) {n : ℕ} (hn : 2 ≤ n) :
    rnd MPFR_PREC (r - m) ≤ 0 ∧
      rnd MPFR_PREC (r - rnd MPFR_PREC
        (m + rnd MPFR_PREC (rnd MPFR_PREC (r - m) / (n : ℚ)))) ≤ 0 := by
  have hd0 : rnd MPFR_PREC (r - m) ≤ 0 := rnd_le_zero mPREC_ge_one (by linarith)
  have hdrep : FRep MPFR_PREC (rnd MPFR_PREC (r - m)) := frep_rnd mPREC_ge_one _
  have hdub : 2 * (r - m) ≤ rnd MPFR_PREC (r - m) :=
    rnd_ge_double mPREC_ge_one (by linarith)
  have ht0 : rnd MPFR_PREC (rnd MPFR_PREC (r - m) / (n : ℚ)) ≤ 0 := by
    apply rnd_le_zero mPREC_ge_one
    have hn0 : (0:ℚ) < (n : ℚ) := by
      exact_mod_cast lt_of_lt_of_le (by norm_num) hn
    exact div_nonpos_of_nonpos_of_nonneg hd0 hn0.le
  have htge : rnd MPFR_PREC (r - m) / 2 ≤
      rnd MPFR_PREC (rnd MPFR_PREC (r - m) / (n : ℚ)) :=
    rnd_div_nat_ge_half mPREC_ge_one hd0 hdrep hn
  have hMge : r ≤ rnd MPFR_PREC
      (m + rnd MPFR_PREC (rnd MPFR_PREC (r - m) / (n : ℚ))) := by
    calc r = rnd MPFR_PREC r := hr.symm
    _ ≤ rnd MPFR_PREC (m + rnd MPFR_PREC (rnd MPFR_PREC (r - m) / (n : ℚ))) :=
        rnd_mono mPREC_ge_one (by linarith)
  exact ⟨hd0, rnd_le_zero mPREC_ge_one (by linarith)⟩

theorem welford_prod_nonneg {r m : ℚ} (hr : FRep MPFR_PREC r)
    (hm : FRep MPFR_PREC m) (n : ℕ) (hn : 1 ≤ n) (h1 : n = 1 → m = 0) :
    0 ≤ rnd MPFR_PREC (r - m) *
      rnd MPFR_PREC (r - rnd MPFR_PREC
        (m + rnd MPFR_PREC (rnd MPFR_PREC (r - m) / (n : ℚ)))) := by
  rcases eq_or_lt_of_le hn with he | hlt
  · have hm0 : m = 0 := h1 he.symm
    have hre : rnd MPFR_PREC r = r := hr
    subst hm0
    rw [← he]
    simp [hre, rnd_zero]
  · have hn2 : 2 ≤ n := hlt
    rcases le_total m r with h | h
    · obtain ⟨ha, hb⟩ := welford_nonneg_core h hr hm hn2
      exact mul_nonneg ha hb
    · obtain ⟨ha, hb⟩ := welford_nonpos_core h hr hm hn2
      exact mul_nonneg_of_nonpos_of_nonpos ha hb

theorem isFin_exists {x : MFloat} (h : x.isFin = true) : ∃ q, x = .fin q := by
  cases x with
  | nan => simp [MFloat.isFin] at h
  | inf s => simp [MFloat.isFin] at h
  | fin a => exact ⟨a, rfl⟩

theorem welford_step {s : stats_t} (hInv : WelfordInv s) {y ref : MFloat}
    {r : ℚ} (hrel : stats_reldiff y ref = .fin r) :
    WelfordInv (stats_add s y ref) ∧
      ∃ b b' : ℚ, s.m2 = .fin b ∧ (stats_add s y ref).m2 = .fin b' ∧
        0 ≤ b ∧ b ≤ b' := by
  obtain ⟨⟨m, hmean, hmrep, hm0⟩, ⟨b, hm2, hbrep, hb0⟩⟩ := hInv
  have heval := stats_add_eval s hrel hmean hm2
  have hrrep := stats_reldiff_fin_frep hrel
  have hprod := welford_prod_nonneg hrrep hmrep (s.n + 1) (by omega)
    (fun h => hm0 (by omega))
  have hmean' : (stats_add s y ref).mean =
      .fin (rnd MPFR_PREC
        (m + rnd MPFR_PREC (rnd MPFR_PREC (r - m) / ((s.n + 1 : ℕ) : ℚ)))) := by
    rw [heval]
  have hm2' : (stats_add s y ref).m2 =
      .fin (rnd MPFR_PREC
        (rnd MPFR_PREC (r - m) *
          rnd MPFR_PREC (r - rnd MPFR_PREC
            (m + rnd MPFR_PREC (rnd MPFR_PREC (r - m) / ((s.n + 1 : ℕ) : ℚ)))) +
          b)) := by
    rw [heval]
  have hn' : (stats_add s y ref).n = s.n + 1 := rfl
  have hb'ge : b ≤ rnd MPFR_PREC
      (rnd MPFR_PREC (r - m) *
        rnd MPFR_PREC (r - rnd MPFR_PREC
          (m + rnd MPFR_PREC (rnd MPFR_PREC (r - m) / ((s.n + 1 : ℕ) : ℚ)))) +
        b) := by
    calc b = rnd MPFR_PREC b := hbrep.symm
    _ ≤ rnd MPFR_PREC _ := rnd_mono mPREC_ge_one (by linarith)
  refine ⟨⟨⟨_, hmean', frep_rnd mPREC_ge_one _, ?_⟩,
      ⟨_, hm2', frep_rnd mPREC_ge_one _, by linarith⟩⟩,
    b, _, hm2, hm2', hb0, hb'ge⟩
  intro h
  rw [hn'] at h
  omega

theorem statsSteps_inv (l : List (MFloat × MFloat)) : ∀ s : stats_t,
    WelfordInv s → (∀ x ∈ l, (stats_reldiff x.1 x.2).isFin = true) →
    WelfordInv (statsSteps s l) := by
  induction l with
  | nil => intro s hs _; exact hs
  | cons x xs ih =>
      intro s hs hfin
      obtain ⟨r, hr⟩ := isFin_exists (hfin x (by simp))
      exact ih (stats_add s x.1 x.2) (welford_step hs hr).1
        (fun p hp => hfin p (by simp [hp]))

theorem stats_init_inv (d g : String) : WelfordInv (stats_init d g) :=
  ⟨⟨0, rfl, frep_zero _, fun _ => rfl⟩, ⟨0, rfl, frep_zero _, le_refl 0⟩⟩

/-- Claim C10.  Starting from stats_init, along any sequence of stats_add
calls whose computed relative errors are all finite, m2 stays non-negative
and never decreases: for every prefix l and next input x, the m2 before and
after the call are finite values b and b' with 0 ≤ b ≤ b'.  (At 512-bit
round-to-nearest the updated mean stays weakly between the old mean and
reldiff, so delta and reldiff - new mean never have strictly opposite
signs.) -/
theorem m2_monotone_nonneg (d g : String) (l : List (MFloat × MFloat))
    (x : MFloat × MFloat)
    (hfin : ∀ p ∈ l ++ [x], (stats_reldiff p.1 p.2).isFin = true) :
    ∃ b b' : ℚ, (statsRun d g l).m2 = .fin b ∧
      (statsRun d g (l ++ [x])).m2 = .fin b' ∧ 0 ≤ b ∧ b ≤ b' := by
  have hInv : WelfordInv (statsRun d g l) :=
    statsSteps_inv l _ (stats_init_inv d g) (fun p hp => hfin p (by simp [hp]))
  obtain ⟨r, hr⟩ := isFin_exists (hfin x (by simp))
  have hrun : statsRun d g (l ++ [x]) = stats_add (statsRun d g l) x.1 x.2 := by
    unfold statsRun statsSteps
    rw [List.foldl_append]
    rfl
  obtain ⟨_, b, b', hb, hb', hb0, hle⟩ := welford_step hInv hr
  exact ⟨b, b', hb, by rw [hrun]; exact hb', hb0, hle⟩

/-- Claim C10 witness: the statement at the concrete one-element run with
input (2, 1), whose computed relative error is the finite value 1. -/
theorem m2_monotone_witness :
    ∃ b b' : ℚ, (statsRun "a" "b" []).m2 = .fin b ∧
      (statsRun "a" "b" ([] ++ [(MFloat.fin 2, MFloat.fin 1)])).m2 = .fin b' ∧
      0 ≤ b ∧ b ≤ b' :=
  m2_monotone_nonneg "a" "b" [] (MFloat.fin 2, MFloat.fin 1) (by
    intro p hp
    simp at hp
    subst hp
    rw [show (MFloat.fin 2, MFloat.fin 1).1 = MFloat.fin 2 from rfl,
      show (MFloat.fin 2, MFloat.fin 1).2 = MFloat.fin 1 from rfl,
      stats_reldiff_two_one]
    rfl)
